/-
Verification of the quadpy quadrature library (tetrahedron schemes and
n-cube Stroud schemes) against its natural-language specification.

The source (src/quadrature/tetrahedron.py, src/quadpy/ncube/_stroud_1957.py)
is embedded shallowly:

* barycentric orbit generators `_s4`, `_s31`, `_s22`, `_s211`, `_s1111`
  become functions over an arbitrary field (the source runs them on floats
  or on sympy exact numbers);
* the scheme constructors (`Keast`, `Yu`, `ShunnHam`, `Zienkiewicz`,
  `LiuVinokur`) become `Int → Option Scheme` functions, `none` embedding the
  `ValueError` branch of the source's `if`/`elif` chain;
* the tabulated decimal weight constants are read as exact rationals, which
  is what the decimal literals in the source denote;
* `integrate` becomes the exact weighted sum over mapped points with the
  signed scaled Jacobian determinant of the source;
* the Newton–Cotes weight pipeline is embedded with `Polynomial ℚ` /
  `MvPolynomial (Fin 4) ℚ` standing for the sympy polynomials, and the
  factorial-identity integration functional acting on monomial coefficients
  exactly as the source's loop over `g.monoms()` / `g.coeffs()`.
-/
import Mathlib

namespace Quadpy

/-! ## Orbit generators (src/quadrature/tetrahedron.py, `_s4` .. `_s1111`)

A barycentric point is a 4-tuple.  The generators are polymorphic over the
number field, mirroring the source which runs the same formulas on floats
or sympy numbers. -/

/-- A row of barycentric coordinates, as produced by the orbit generators. -/
def Bary4 (K : Type) := K × K × K × K

/-- Sum of the four barycentric coordinates of a row. -/
def barySum {K : Type} [Field K] (r : Bary4 K) : K :=
  r.1 + r.2.1 + r.2.2.1 + r.2.2.2

/-- Source `_s4()`: the single centroid row `[0.25, 0.25, 0.25, 0.25]`. -/
def _s4 {K : Type} [Field K] : List (Bary4 K) :=
  [(1/4, 1/4, 1/4, 1/4)]

/-- Source `_s31(a)`: `b = 1 - 3a` and the four rows of the `[a,a,a,b]`
permutation pattern, in source order. -/
def _s31 {K : Type} [Field K] (a : K) : List (Bary4 K) :=
  let b := 1 - 3*a
  [(a, a, a, b), (a, a, b, a), (a, b, a, a), (b, a, a, a)]

/-- Source `_s22(a)`: `b = 0.5 - a` and the six rows of the `[a,a,b,b]`
pattern, in source order. -/
def _s22 {K : Type} [Field K] (a : K) : List (Bary4 K) :=
  let b := 1/2 - a
  [(a, a, b, b), (a, b, a, b), (b, a, a, b),
   (a, b, b, a), (b, a, b, a), (b, b, a, a)]

/-- Source `_s211(a, b)`: `c = 1 - 2a - b` and the twelve rows of the
`[a,a,b,c]` pattern, in source order. -/
def _s211 {K : Type} [Field K] (a b : K) : List (Bary4 K) :=
  let c := 1 - 2*a - b
  [(a, a, b, c), (a, b, a, c), (b, a, a, c),
   (a, b, c, a), (b, a, c, a), (b, c, a, a),
   (a, a, c, b), (a, c, a, b), (c, a, a, b),
   (a, c, b, a), (c, a, b, a), (c, b, a, a)]

/-- Source `_s1111(a, b, c)`: `d = 1 - a - b - c` and the twenty-four rows
of the all-distinct pattern, in source order. -/
def _s1111 {K : Type} [Field K] (a b c : K) : List (Bary4 K) :=
  let d := 1 - a - b - c
  [(a, b, c, d), (a, b, d, c), (a, c, b, d), (a, c, d, b),
   (a, d, b, c), (a, d, c, b), (b, a, c, d), (b, a, d, c),
   (b, c, a, d), (b, c, d, a), (b, d, a, c), (b, d, c, a),
   (c, a, b, d), (c, a, d, b), (c, b, a, d), (c, b, d, a),
   (c, d, a, b), (c, d, b, a), (d, a, b, c), (d, a, c, b),
   (d, b, a, c), (d, b, c, a), (d, c, a, b), (d, c, b, a)]

/-- `bary[:, 1:]` of the source: drop the first barycentric coordinate. -/
def dropBary0 {K : Type} (r : Bary4 K) : K × K × K := r.2

/-! ## Tabulated tetrahedron schemes with rational data

`Keast`, `Yu`, `ShunnHam` and `Zienkiewicz` only use decimal and fractional
literals, so they are embedded over `ℚ` (the exact values the source's
literals denote).  The scheme classes become `Int → Option` constructors:
`none` is the `raise ValueError` branch. -/

/-- A constructed tetrahedron scheme: parallel `weights`/`points` arrays
(`points` are the last three barycentric coordinates) and the degree. -/
structure TetSchemeQ where
  weights : List ℚ
  points : List (ℚ × ℚ × ℚ)
  degree : ℕ
  deriving DecidableEq

/-- Assemble a scheme from per-orbit `(weight, orbit)` groups: broadcast
each weight over its orbit's rows and drop the first coordinate. -/
def assembleQ (groups : List (ℚ × List (Bary4 ℚ))) (degree : ℕ) : TetSchemeQ :=
  { weights := (groups.map fun g => List.replicate g.2.length g.1).flatten
    points := ((groups.map fun g => g.2).flatten).map dropBary0
    degree := degree }

/-- Source class `Keast`: the eleven tabulated rules, index 0..10;
any other index raises. -/
def keast (index : ℤ) : Option TetSchemeQ :=
  if index = 0 then some (assembleQ [(1, _s4)] 1)
  else if index = 1 then some (assembleQ [(0.25, _s31 0.1381966011250105)] 2)
  else if index = 2 then some (assembleQ
    [(-0.8, _s4), (0.45, _s31 (1/6))] 3)
  else if index = 3 then some (assembleQ
    [(0.2177650698804054, _s31 0.1438564719343852),
     (0.0214899534130631, _s22 0.5)] 3)
  else if index = 4 then some (assembleQ
    [(-148/1875, _s4), (343/7500, _s31 (1/14)),
     (56/375, _s22 0.3994035761667992)] 4)
  else if index = 5 then some (assembleQ
    [(2/105, _s22 0.5), (0.0885898247429807, _s31 0.1005267652252045),
     (0.1328387466855907, _s31 0.3143728734931922)] 4)
  else if index = 6 then some (assembleQ
    [(6544/36015, _s4), (81/2240, _s31 (1/3)),
     (161051/2304960, _s31 (1/11)), (338/5145, _s22 0.0665501535736643)] 5)
  else if index = 7 then some (assembleQ
    [(0.0399227502581679, _s31 0.2146028712591517),
     (0.0100772110553207, _s31 0.0406739585346113),
     (0.0553571815436544, _s31 0.3223378901422757),
     (27/560, _s211 0.0636610018750175 0.2696723314583159)] 6)
  else if index = 8 then some (assembleQ
    [(0.1095853407966528, _s4),
     (0.0635996491464850, _s31 0.0782131923303186),
     (-0.3751064406859797, _s31 0.1218432166639044),
     (0.0293485515784412, _s31 0.3325391644464206),
     (0.0058201058201058, _s22 0.5),
     (0.1653439153439105, _s211 0.1 0.2)] 7)
  else if index = 9 then some (assembleQ
    [(-0.2359620398477557, _s4),
     (0.0244878963560562, _s31 0.1274709365666390),
     (0.0039485206398261, _s31 0.0320788303926323),
     (0.0263055529507371, _s22 0.0497770956432810),
     (0.0829803830550589, _s22 0.1837304473985499),
     (0.0254426245481023, _s211 0.2319010893971509 0.5132800333608811),
     (0.0134324384376852, _s211 0.0379700484718286 0.1937464752488044)] 7)
  else if index = 10 then some (assembleQ
    [(6 * -0.0393270066412926145, _s4),
     (6 * 0.00408131605934270525, _s31 0.127470936566639015),
     (6 * 0.000658086773304341943, _s31 0.0320788303926322960),
     (6 * 0.00438425882512284693, _s22 0.0497770956432810185),
     (6 * 0.0138300638425098166, _s22 0.183730447398549945),
     (6 * 0.00424043742468372453,
        _s211 0.231901089397150906 0.0229177878448171174),
     (6 * 0.00223873973961420164,
        _s211 0.0379700484718286102 0.730313427807538396)] 8)
  else none

/-- Source class `Yu`: the five tabulated rules, index 1..5. -/
def yu (index : ℤ) : Option TetSchemeQ :=
  if index = 1 then some (assembleQ [(0.25, _s31 0.138196601125015)] 2)
  else if index = 2 then some (assembleQ
    [(-0.8, _s4), (0.45, _s31 (1/6))] 3)
  else if index = 3 then some (assembleQ
    [(0.05037379410012282, _s31 0.07611903264425430),
     (0.06654206863329239, _s211 0.4042339134672644 0.1197005277978019)] 4)
  else if index = 4 then some (assembleQ
    [(0.1884185567365411, _s4),
     (0.06703858372604275, _s31 0.08945436401412733),
     (0.04528559236327399, _s211 0.4214394310662522 0.1325810999384657)] 5)
  else if index = 5 then some (assembleQ
    [(0.09040129046014750, _s4),
     (0.01911983427899124, _s31 0.05742691731735682),
     (0.04361493840666568, _s211 0.2312985436519147 0.05135188412556341),
     (0.02581167596199161, _s211 0.04756909881472290 0.2967538129690260)] 6)
  else none

/-- Source class `ShunnHam`: the six tabulated rules, index 1..6. -/
def shunnHam (index : ℤ) : Option TetSchemeQ :=
  if index = 1 then some (assembleQ [(1, _s4)] 1)
  else if index = 2 then some (assembleQ [(0.25, _s31 0.1381966011250110)] 2)
  else if index = 3 then some (assembleQ
    [(0.0476331348432089, _s31 0.0738349017262234),
     (0.1349112434378610, _s22 0.0937556561159491)] 3)
  else if index = 4 then some (assembleQ
    [(0.0070670747944695, _s31 0.0323525947272439),
     (0.0469986689718877, _s211 0.0603604415251421 0.2626825838877790),
     (0.1019369182898680, _s31 0.3097693042728620)] 5)
  else if index = 5 then some (assembleQ
    [(0.0021900463965388, _s31 0.0267367755543735),
     (0.0143395670177665, _s211 0.0391022406356488 0.7477598884818090),
     (0.0250305395686746, _s22 0.0452454000155172),
     (0.0479839333057554, _s211 0.2232010379623150 0.0504792790607720),
     (0.0931745731195340, [(0.25, 0.25, 0.25, 0.25)])] 6)
  else if index = 6 then some (assembleQ
    [(0.0010373112336140, _s31 0.0149520651530592),
     (0.0096016645399480, _s211 0.0340960211962615 0.1518319491659370),
     (0.0164493976798232, _s211 0.0462051504150017 0.5526556431060170),
     (0.0153747766513310, _s211 0.2281904610687610 0.0055147549744775),
     (0.0293520118375230, _s211 0.3523052600879940 0.0992057202494530),
     (0.0366291366405108, _s31 0.1344783347929940)] 7)
  else none

/-! ## LiuVinokur schemes (irrational weights, over `ℝ`) -/

/-- A tetrahedron scheme over `ℝ` (for the families with `sqrt`/trig data,
and as the common carrier for integration). -/
structure TetSchemeR where
  weights : List ℝ
  points : List (ℝ × ℝ × ℝ)
  degree : ℕ

/-- Real-valued counterpart of `assembleQ`. -/
noncomputable def assembleR (groups : List (ℝ × List (Bary4 ℝ)))
    (degree : ℕ) : TetSchemeR :=
  { weights := (groups.map fun g => List.replicate g.2.length g.1).flatten
    points := ((groups.map fun g => g.2).flatten).map dropBary0
    degree := degree }

/-- Source `LiuVinokur._r_alpha`. -/
noncomputable def _r_alpha (α : ℝ) : List (Bary4 ℝ) :=
  let a := (1 + 3*α) / 4
  let b := (1 - α) / 4
  [(a, b, b, b), (b, a, b, b), (b, b, a, b), (b, b, b, a)]

/-- Source `LiuVinokur._r_beta`. -/
noncomputable def _r_beta (β : ℝ) : List (Bary4 ℝ) :=
  let a := (1 + 2*β) / 4
  let b := (1 - 2*β) / 4
  [(a, a, b, b), (a, b, a, b), (b, a, a, b),
   (a, b, b, a), (b, a, b, a), (b, b, a, a)]

/-- Source `LiuVinokur._r_gamma_delta`. -/
noncomputable def _r_gamma_delta (γ δ : ℝ) : List (Bary4 ℝ) :=
  let b := (1 + 3*γ - δ) / 4
  let c := (1 + 3*δ - γ) / 4
  let a := (1 - γ - δ) / 4
  [(a, a, b, c), (a, b, a, c), (b, a, a, c),
   (a, b, c, a), (b, a, c, a), (b, c, a, a),
   (a, a, c, b), (a, c, a, b), (c, a, a, b),
   (a, c, b, a), (c, a, b, a), (c, b, a, a)]

/-- `alpha1` of LiuVinokur index 8. -/
noncomputable def lv8alpha1 : ℝ :=
  (Real.sqrt (65944 - 19446 * Real.sqrt 11) + 51 * Real.sqrt 11 - 154) / 89

/-- `alpha2` of LiuVinokur index 8. -/
noncomputable def lv8alpha2 : ℝ :=
  (-Real.sqrt (65944 - 19446 * Real.sqrt 11) + 51 * Real.sqrt 11 - 154) / 89

/-- `lmbda` of LiuVinokur index 12. -/
noncomputable def lv12lambda : ℝ :=
  4/27 * (4 * Real.sqrt 79 *
    Real.cos ((Real.arccos (67 * Real.sqrt 79 / 24964) + 2 * Real.pi) / 3)
    + 71)

/-- `alpha1` of LiuVinokur index 12. -/
noncomputable def lv12alpha1 : ℝ :=
  (Real.sqrt (9 * lv12lambda^2 - 248 * lv12lambda + 1680)
    + 28 - 3 * lv12lambda) / (112 - 10 * lv12lambda)

/-- `alpha2` of LiuVinokur index 12. -/
noncomputable def lv12alpha2 : ℝ :=
  (-Real.sqrt (9 * lv12lambda^2 - 248 * lv12lambda + 1680)
    + 28 - 3 * lv12lambda) / (112 - 10 * lv12lambda)

/-- Source class `LiuVinokur`: the fourteen tabulated rules, index 1..14. -/
noncomputable def liuVinokur (index : ℤ) : Option TetSchemeR :=
  if index = 1 then some (assembleR [(1, _s4)] 1)
  else if index = 2 then some (assembleR [(0.25, _r_alpha 1)] 1)
  else if index = 3 then some (assembleR
    [(0.25, _r_alpha (1 / Real.sqrt 5))] 2)
  else if index = 4 then some (assembleR
    [(0.8, _s4), (0.05, _r_alpha 1)] 2)
  else if index = 5 then some (assembleR
    [(-0.8, _s4), (0.45, _r_alpha (1/3))] 3)
  else if index = 6 then some (assembleR
    [(1/40, _r_alpha 1), (9/40, _r_alpha (-1/3))] 3)
  else if index = 7 then some (assembleR
    [(-148/1875, _s4), (343/7500, _r_alpha (5/7)),
     (56/375, _r_beta (Real.sqrt 70 / 28))] 4)
  else if index = 8 then some (assembleR
    [((17 * lv8alpha2 - 7) / (420 * lv8alpha1^2 * (lv8alpha2 - lv8alpha1)),
        _r_alpha lv8alpha1),
     ((17 * lv8alpha1 - 7) / (420 * lv8alpha2^2 * (lv8alpha1 - lv8alpha2)),
        _r_alpha lv8alpha2),
     (2/105, _r_beta 0.5)] 4)
  else if index = 9 then some (assembleR
    [(-32/15, _s4), (3/280, _r_alpha 1), (125/168, _r_alpha 0.2),
     (2/105, _r_beta 0.5)] 4)
  else if index = 10 then some (assembleR
    [(32/105, _s4), (-31/840, _r_alpha 1), (27/280, _r_alpha (-1/3)),
     (4/105, _r_gamma_delta ((2 + Real.sqrt 2) / 4) ((2 - Real.sqrt 2) / 4))]
    4)
  else if index = 11 then some (assembleR
    [((11 - 4 * Real.sqrt 2) / 840, _r_alpha 1),
     ((243 - 108 * Real.sqrt 2) / 1960, _r_alpha (-1/3)),
     ((62 + 44 * Real.sqrt 2) / 735, _r_alpha (Real.sqrt 2 - 1)),
     (2/105, _r_beta 0.5)] 4)
  else if index = 12 then some (assembleR
    [(((21 - lv12lambda) * lv12alpha2 - 7) /
        (420 * lv12alpha1^2 * (lv12alpha2 - lv12alpha1)),
        _r_alpha lv12alpha1),
     (((21 - lv12lambda) * lv12alpha1 - 7) /
        (420 * lv12alpha2^2 * (lv12alpha1 - lv12alpha2)),
        _r_alpha lv12alpha2),
     (lv12lambda^2 / 840, _r_beta (1 / Real.sqrt lv12lambda))] 5)
  else if index = 13 then some (assembleR
    [(-16/21, _s4),
     ((2249 - 391 * Real.sqrt 13) / 10920,
        _r_alpha ((2 + Real.sqrt 13) / 9)),
     ((2249 + 391 * Real.sqrt 13) / 10920,
        _r_alpha ((2 - Real.sqrt 13) / 9)),
     (2/105, _r_beta 0.5)] 5)
  else if index = 14 then some (assembleR
    [(16/105, _s4), (1/280, _r_alpha 1), (81/1400, _r_alpha (-1/3)),
     (64/525, _r_alpha 0.5), (2/105, _r_beta 0.5)] 5)
  else none

/-! ## Geometric integrator (source `integrate`) -/

/-- A point of the ambient space. -/
def Pt3 := ℝ × ℝ × ℝ

/-- A concrete tetrahedron: its four vertices, in order. -/
def Tet4 := Pt3 × Pt3 × Pt3 × Pt3

/-- The affine map of the source: vertex combination weighted by
`1 - ξ₀ - ξ₁ - ξ₂, ξ₀, ξ₁, ξ₂`. -/
noncomputable def mapPt (tet : Tet4) (ξ : ℝ × ℝ × ℝ) : Pt3 :=
  let l0 := 1 - ξ.1 - ξ.2.1 - ξ.2.2
  (tet.1.1 * l0 + tet.2.1.1 * ξ.1 + tet.2.2.1.1 * ξ.2.1
     + tet.2.2.2.1 * ξ.2.2,
   tet.1.2.1 * l0 + tet.2.1.2.1 * ξ.1 + tet.2.2.1.2.1 * ξ.2.1
     + tet.2.2.2.2.1 * ξ.2.2,
   tet.1.2.2 * l0 + tet.2.1.2.2 * ξ.1 + tet.2.2.1.2.2 * ξ.2.1
     + tet.2.2.2.2.2 * ξ.2.2)

/-- The determinant of the source's `integrate` (its `det` before the
`1/6` rescaling): the scalar triple product of the edge vectors
`J0 = t1 - t0`, `J1 = t2 - t0`, `J2 = t3 - t0`, expanded exactly as in
the source. -/
noncomputable def edgeDet (tet : Tet4) : ℝ :=
  let j00 := tet.2.1.1 - tet.1.1
  let j01 := tet.2.1.2.1 - tet.1.2.1
  let j02 := tet.2.1.2.2 - tet.1.2.2
  let j10 := tet.2.2.1.1 - tet.1.1
  let j11 := tet.2.2.1.2.1 - tet.1.2.1
  let j12 := tet.2.2.1.2.2 - tet.1.2.2
  let j20 := tet.2.2.2.1 - tet.1.1
  let j21 := tet.2.2.2.2.1 - tet.1.2.1
  let j22 := tet.2.2.2.2.2 - tet.1.2.2
  j00*j11*j22 + j10*j21*j02 + j20*j01*j12
    - j02*j11*j20 - j12*j21*j00 - j22*j01*j10

/-- Source `integrate(f, tetrahedron, scheme)`: map the scheme points
into the tetrahedron, scale the determinant by `1/6` (the reference
volume) and return the weighted sum of integrand values times the
absolute scaling factor (`math.fsum` is a sum over `ℝ`). -/
noncomputable def integrate (f : Pt3 → ℝ) (tet : Tet4)
    (scheme : TetSchemeR) : ℝ :=
  let det := edgeDet tet * (1/6)
  ((scheme.weights.zip scheme.points).map
    (fun wp => wp.1 * f (mapPt tet wp.2) * |det|)).sum

/-- The reference tetrahedron `[(0,0,0), (1,0,0), (0,1,0), (0,0,1)]`. -/
noncomputable def refTet : Tet4 :=
  ((0, 0, 0), (1, 0, 0), (0, 1, 0), (0, 0, 1))

/-- Cast a rational-data scheme into the real-valued carrier used by
`integrate`. -/
noncomputable def TetSchemeQ.toR (s : TetSchemeQ) : TetSchemeR :=
  { weights := s.weights.map (fun w => (w : ℝ))
    points := s.points.map (fun p => ((p.1 : ℝ), (p.2.1 : ℝ), (p.2.2 : ℝ)))
    degree := s.degree }

/-- Source class `Zienkiewicz`: only indices 4 and 5 exist. -/
def zienkiewicz (index : ℤ) : Option TetSchemeQ :=
  if index = 4 then some (assembleQ [(0.25, _s31 0.1381966011250105)] 2)
  else if index = 5 then some (assembleQ
    [(-0.8, _s4), (0.45, _s31 (1/6))] 3)
  else none

/-! ## Newton–Cotes weight solver (source `_newton_cotes`)

The sympy polynomial algebra is embedded with `Polynomial ℚ` (the 1-D
Lagrange factors of `get_poly`) and `MvPolynomial (Fin 4) ℚ` (the product
`g` over the four deferred-vector components `t[0] .. t[3]`).  The
factorial identity applied to every monomial/coefficient pair of `g`
becomes the linear functional `silvesterSum`. -/

/-- Node placement of `NewtonCotesClosed`, `k / n` (total version used by
the weight computation, which the source only reaches for `n ≥ 1`). -/
def closedNode (n k : ℕ) : ℚ := (k : ℚ) / n

/-- Node placement of `NewtonCotesOpen`, `(k+1) / (n+4)`. -/
def openNode (n k : ℕ) : ℚ := ((k : ℚ) + 1) / ((n : ℚ) + 4)

/-- The source's node placement `k / float(n)` is a float division and
therefore fallible: for `n = 0` it produces no well-defined number
(`0.0/0.0` is NaN).  `none` embeds the non-finite result. -/
def closedNodeF (n k : ℕ) : Option ℚ :=
  if n = 0 then none else some ((k : ℚ) / n)

/-- Source `get_poly(t, m, n)`: the product over `k < m` of the linear
polynomials `(t - p k) / (p m - p k)`. -/
noncomputable def getPoly (p : ℕ → ℚ) (m : ℕ) : Polynomial ℚ :=
  ∏ k ∈ Finset.range m,
    Polynomial.C (1 / (p m - p k)) * (Polynomial.X - Polynomial.C (p k))

/-- The factorial identity of Silvester applied to one monomial exponent
vector: `prod(factorial(k) for k in m) * 6 / factorial(sum(m) + 3)`. -/
def silvesterCoeff (m : Fin 4 →₀ ℕ) : ℚ :=
  ((∏ s, Nat.factorial (m s) : ℕ) * 6 : ℚ)
    / (Nat.factorial ((∑ s, m s) + 3) : ℚ)

/-- The weight of one lattice point: the sum over all monomial/coefficient
pairs of the 4-variable polynomial `g` of coefficient times the factorial
identity (the source's `numpy.sum` over `zip(g.monoms(), g.coeffs())`). -/
noncomputable def silvesterSum (g : MvPolynomial (Fin 4) ℚ) : ℚ :=
  ∑ m ∈ g.support, g.coeff m * silvesterCoeff m

/-- The polynomial `g` of the source: the product of the four 1-D Lagrange
basis polynomials, each evaluated in its own deferred-vector component. -/
noncomputable def latticePoly (p : ℕ → ℚ) (i j k l : ℕ) :
    MvPolynomial (Fin 4) ℚ :=
  Polynomial.aeval (MvPolynomial.X 0) (getPoly p i)
    * Polynomial.aeval (MvPolynomial.X 1) (getPoly p j)
    * Polynomial.aeval (MvPolynomial.X 2) (getPoly p k)
    * Polynomial.aeval (MvPolynomial.X 3) (getPoly p l)

/-- The lattice multi-indices `(i, j, k)` in the nested loop order of the
source (`l = n - i - j - k` is implicit). -/
def ncLattice (n : ℕ) : List (ℕ × ℕ × ℕ) :=
  ((List.range (n+1)).map fun i =>
    ((List.range (n+1-i)).map fun j =>
      (List.range (n+1-i-j)).map fun k => (i, j, k)).flatten).flatten

/-- The weight array of `_newton_cotes(n, point_fun)`: `[1]` for `n = 0`,
otherwise one Silvester weight per lattice point, in loop order. -/
noncomputable def newtonCotesWeights (p : ℕ → ℚ) (n : ℕ) : List ℚ :=
  if n = 0 then [1]
  else (ncLattice n).map fun t =>
    silvesterSum (latticePoly p t.1 t.2.1 t.2.2 (n - t.1 - t.2.1 - t.2.2))

/-- Weights of `NewtonCotesClosed(n)`. -/
noncomputable def newtonCotesClosedWeights (n : ℕ) : List ℚ :=
  newtonCotesWeights (closedNode n) n

/-- Weights of `NewtonCotesOpen(n)`. -/
noncomputable def newtonCotesOpenWeights (n : ℕ) : List ℚ :=
  newtonCotesWeights (openNode n) n

/-- The barycentric point rows of `_newton_cotes(n, point_fun)` for the
closed variant, with the fallible float node function: row `(i,j,k,l)`
has entries `point_fun` applied to each index.  For `n = 0` every entry
is `none` (NaN in the source). -/
def ncClosedBary (n : ℕ) : List (List (Option ℚ)) :=
  (ncLattice n).map fun t =>
    [closedNodeF n t.1, closedNodeF n t.2.1, closedNodeF n t.2.2,
     closedNodeF n (n - t.1 - t.2.1 - t.2.2)]

/-! ## n-cube schemes (src/quadpy/ncube/_stroud_1957.py)

The module imports `_s`, `NCubeScheme` (from `._helpers`) and `untangle`
(from `..helpers`); those files are not part of the given sources, so they
are modelled from the spec (sections 4.2 and 4.3). -/

/-- An n-cube scheme (citation metadata is excluded by the spec as
pass-through data). -/
structure NCubeScheme where
  name : String
  dim : ℕ
  weights : List ℝ
  points : List (List ℝ)
  degree : ℕ

/-- Modelled from the spec: the missing `_s(n, a, b)` helper of the n-cube
module — the axis-aligned corner/edge reflection points, one coordinate
per axis set to `+b` or `-b` and every other coordinate at `a`
(`2n` points). -/
def _sncube (n : ℕ) (a b : ℝ) : List (List ℝ) :=
  ((List.range n).map fun i =>
    [(List.range n).map fun j => if j = i then b else a,
     (List.range n).map fun j => if j = i then -b else a]).flatten

/-- Modelled from the spec: the missing `untangle(data)` utility — flatten
the ordered `(weight, point-array)` groups into parallel `(points,
weights)` arrays, broadcasting each scalar weight once per point of its
group, preserving order. -/
def untangle (data : List (ℝ × List (List ℝ))) :
    List (List ℝ) × List ℝ :=
  ((data.map fun g => g.2).flatten,
   (data.map fun g => List.replicate g.2.length g.1).flatten)

/-- Source `stroud_1957_2(n)`: centre-ish point of weight 1 plus the
`+r`/`-r` weighted corner reflections, rescaled by the reference volume
`2^n`. -/
noncomputable def stroud_1957_2 (n : ℕ) : NCubeScheme :=
  let r := Real.sqrt 3 / 6
  let data : List (ℝ × List (List ℝ)) :=
    [(1, [List.replicate n (2 * r)]),
     (r, _sncube n (-1) r),
     (-r, _sncube n 1 r)]
  let pw := untangle data
  { name := "Stroud 1957-2", dim := n,
    weights := pw.2.map fun w => w * 2^n,
    points := pw.1, degree := 2 }

/-- The alternating-sign `1/sqrt(3)` row appended by `stroud_1957_3` for
odd `n` (`sqrt3pm` with entries at odd positions negated). -/
noncomputable def stroudAltRow (n : ℕ) : List ℝ :=
  (List.range (2 * n)).map fun j =>
    if j % 2 = 1 then -(1 / Real.sqrt 3) else 1 / Real.sqrt 3

/-- The stacked coordinate rows of `stroud_1957_3` before transposition:
one cosine row and one sine row per `k = 1 .. floor(n/2)`, plus the
alternating row when `n` is odd. -/
noncomputable def stroudRows (n : ℕ) : List (List ℝ) :=
  let n2 := if n % 2 = 0 then n / 2 else (n - 1) / 2
  (((List.range n2).map fun k' =>
    [(List.range (2 * n)).map fun i' =>
       Real.sqrt (2/3) *
         Real.cos (((2 * (k'+1) - 1 : ℕ) : ℝ) * ((i'+1 : ℕ) : ℝ)
           * Real.pi / n),
     (List.range (2 * n)).map fun i' =>
       Real.sqrt (2/3) *
         Real.sin (((2 * (k'+1) - 1 : ℕ) : ℝ) * ((i'+1 : ℕ) : ℝ)
           * Real.pi / n)]).flatten)
  ++ (if n % 2 = 1 then [stroudAltRow n] else [])

/-- Source `stroud_1957_3(n)`: the transposed trigonometric rows as `2n`
points, each with weight `1/(2n)`, rescaled by the reference volume
`2^n`. -/
noncomputable def stroud_1957_3 (n : ℕ) : NCubeScheme :=
  let pts := (List.range (2 * n)).map fun j =>
    (stroudRows n).map fun row => row.getD j 0
  let data : List (ℝ × List (List ℝ)) := [(1 / (2 * n), pts)]
  let pw := untangle data
  { name := "Stroud 1957-3", dim := n,
    weights := pw.2.map fun w => w * 2^n,
    points := pw.1, degree := 3 }

/-- Points of the closed Newton–Cotes rule: `bary[:, [1, 2, 3]]`, the last
three (possibly non-finite) barycentric coordinates of each row. -/
def ncClosedPoints (n : ℕ) : List (List (Option ℚ)) :=
  (ncClosedBary n).map fun r => r.drop 1

/-- `Keast` schemes as real-valued schemes, for integration. -/
noncomputable def keastR (i : ℤ) : Option TetSchemeR :=
  (keast i).map TetSchemeQ.toR

/-! ## Claims -/

/-- **C4.** For every real parameter values `a`, `b`, `c` — including
out-of-range ones — every row of barycentric coordinates returned by the
orbit generators `_s4`, `_s31 a`, `_s22 a`, `_s211 a b` and
`_s1111 a b c` sums exactly to `1`. -/
theorem orbit_rows_sum_one (a b c : ℝ) :
    (∀ r ∈ (_s4 : List (Bary4 ℝ)), barySum r = 1) ∧
    (∀ r ∈ _s31 a, barySum r = 1) ∧
    (∀ r ∈ _s22 a, barySum r = 1) ∧
    (∀ r ∈ _s211 a b, barySum r = 1) ∧
    (∀ r ∈ _s1111 a b c, barySum r = 1) := by
  refine ⟨?_, ?_, ?_, ?_, ?_⟩
  · intro r hr
    simp only [_s4, List.mem_cons, List.not_mem_nil, or_false] at hr
    subst hr; simp [barySum]; norm_num
  · intro r hr
    simp only [_s31, List.mem_cons, List.not_mem_nil, or_false] at hr
    rcases hr with rfl | rfl | rfl | rfl <;> (simp [barySum]; try ring)
  · intro r hr
    simp only [_s22, List.mem_cons, List.not_mem_nil, or_false] at hr
    rcases hr with rfl | rfl | rfl | rfl | rfl | rfl <;>
      (simp [barySum]; try ring)
  · intro r hr
    simp only [_s211, List.mem_cons, List.not_mem_nil, or_false] at hr
    rcases hr with rfl | rfl | rfl | rfl | rfl | rfl | rfl | rfl | rfl |
      rfl | rfl | rfl <;> (simp [barySum]; try ring)
  · intro r hr
    simp only [_s1111, List.mem_cons, List.not_mem_nil, or_false] at hr
    rcases hr with rfl | rfl | rfl | rfl | rfl | rfl | rfl | rfl | rfl |
      rfl | rfl | rfl | rfl | rfl | rfl | rfl | rfl | rfl | rfl | rfl |
      rfl | rfl | rfl | rfl <;> (simp [barySum]; try ring)

/-- **C4 witness.** The first row of `_s31 1` (an out-of-range parameter)
sums to `1`. -/
theorem orbit_rows_sum_one_witness :
    barySum ((1 : ℝ), 1, 1, 1 - 3 * 1) = 1 :=
  (orbit_rows_sum_one 1 0 0).2.1 _ (by simp [_s31])

/-- `Keast` rejects every index outside `0..10`. -/
theorem keast_out (i : ℤ) (h : ¬(0 ≤ i ∧ i ≤ 10)) : keast i = none := by
  have h0 : i ≠ 0 := by omega
  have h1 : i ≠ 1 := by omega
  have h2 : i ≠ 2 := by omega
  have h3 : i ≠ 3 := by omega
  have h4 : i ≠ 4 := by omega
  have h5 : i ≠ 5 := by omega
  have h6 : i ≠ 6 := by omega
  have h7 : i ≠ 7 := by omega
  have h8 : i ≠ 8 := by omega
  have h9 : i ≠ 9 := by omega
  have h10 : i ≠ 10 := by omega
  simp only [keast, h0, h1, h2, h3, h4, h5, h6, h7, h8, h9, h10,
    ite_false, if_false]

/-- `Yu` rejects every index outside `1..5`. -/
theorem yu_out (i : ℤ) (h : ¬(1 ≤ i ∧ i ≤ 5)) : yu i = none := by
  have h1 : i ≠ 1 := by omega
  have h2 : i ≠ 2 := by omega
  have h3 : i ≠ 3 := by omega
  have h4 : i ≠ 4 := by omega
  have h5 : i ≠ 5 := by omega
  simp only [yu, h1, h2, h3, h4, h5, ite_false, if_false]

/-- `ShunnHam` rejects every index outside `1..6`. -/
theorem shunnHam_out (i : ℤ) (h : ¬(1 ≤ i ∧ i ≤ 6)) :
    shunnHam i = none := by
  have h1 : i ≠ 1 := by omega
  have h2 : i ≠ 2 := by omega
  have h3 : i ≠ 3 := by omega
  have h4 : i ≠ 4 := by omega
  have h5 : i ≠ 5 := by omega
  have h6 : i ≠ 6 := by omega
  simp only [shunnHam, h1, h2, h3, h4, h5, h6, ite_false, if_false]

/-- `LiuVinokur` rejects every index outside `1..14`. -/
theorem liuVinokur_out (i : ℤ) (h : ¬(1 ≤ i ∧ i ≤ 14)) :
    liuVinokur i = none := by
  have h1 : i ≠ 1 := by omega
  have h2 : i ≠ 2 := by omega
  have h3 : i ≠ 3 := by omega
  have h4 : i ≠ 4 := by omega
  have h5 : i ≠ 5 := by omega
  have h6 : i ≠ 6 := by omega
  have h7 : i ≠ 7 := by omega
  have h8 : i ≠ 8 := by omega
  have h9 : i ≠ 9 := by omega
  have h10 : i ≠ 10 := by omega
  have h11 : i ≠ 11 := by omega
  have h12 : i ≠ 12 := by omega
  have h13 : i ≠ 13 := by omega
  have h14 : i ≠ 14 := by omega
  simp only [liuVinokur, h1, h2, h3, h4, h5, h6, h7, h8, h9, h10, h11,
    h12, h13, h14, ite_false, if_false]

/-- `Zienkiewicz` rejects everything but 4 and 5. -/
theorem zienkiewicz_out (i : ℤ) (h : i ≠ 4 ∧ i ≠ 5) :
    zienkiewicz i = none := by
  simp only [zienkiewicz, h.1, h.2, ite_false, if_false]

/-- **C5.** Out-of-range scheme indices fail with `none` (the source's
`ValueError`), with no fallback scheme: `Keast` outside `0..10`,
`LiuVinokur` outside `1..14`, `Zienkiewicz` for everything but `4` and
`5`, including `1`, `2` and `3`. -/
theorem invalid_scheme_index_none (i : ℤ) :
    (¬(0 ≤ i ∧ i ≤ 10) → keast i = none) ∧
    (¬(1 ≤ i ∧ i ≤ 14) → liuVinokur i = none) ∧
    ((i ≠ 4 ∧ i ≠ 5) → zienkiewicz i = none) ∧
    zienkiewicz 1 = none ∧ zienkiewicz 2 = none ∧ zienkiewicz 3 = none :=
  ⟨keast_out i, liuVinokur_out i, zienkiewicz_out i, rfl, rfl, rfl⟩

/-- **C5 witness.** Index 100 is rejected by all three families. -/
theorem invalid_scheme_index_none_witness :
    keast 100 = none ∧ liuVinokur 100 = none ∧ zienkiewicz 100 = none :=
  ⟨(invalid_scheme_index_none 100).1 (by omega),
   (invalid_scheme_index_none 100).2.1 (by omega),
   (invalid_scheme_index_none 100).2.2.1 (by omega)⟩

/-- **C9.** `integrate` never raises on degenerate domains: for every
tetrahedron with coplanar vertices (zero edge determinant), every
integrand and every scheme, the integral is `0` — the zero scaling factor
multiplies every term of the sum. -/
theorem degenerate_domain_integral_zero (f : Pt3 → ℝ) (tet : Tet4)
    (s : TetSchemeR) (h : edgeDet tet = 0) : integrate f tet s = 0 := by
  unfold integrate
  rw [h]
  apply List.sum_eq_zero
  intro x hx
  simp only [List.mem_map] at hx
  obtain ⟨wp, -, rfl⟩ := hx
  simp

/-- **C9 witness.** The all-zero tetrahedron is degenerate and the
constant integrand yields `0` with a one-point scheme. -/
theorem degenerate_domain_integral_zero_witness :
    edgeDet (((0,0,0), (0,0,0), (0,0,0), (0,0,0)) : Tet4) = 0 ∧
    integrate (fun _ => 1) (((0,0,0), (0,0,0), (0,0,0), (0,0,0)) : Tet4)
      ⟨[1], [(1/4, 1/4, 1/4)], 1⟩ = 0 :=
  ⟨by norm_num [edgeDet],
   degenerate_domain_integral_zero _ _ _ (by norm_num [edgeDet])⟩

/-- **C10.** `NewtonCotesClosed(0)` divides every lattice index by zero in
`k / float(n)`, so its single point has no well-defined coordinates
(every entry is `none`, the embedding of the NaN produced by `0.0/0.0`),
even though the weight array is exactly `[1]`. -/
theorem newton_cotes_closed_zero_point_undefined :
    ncClosedPoints 0 = [[none, none, none]] ∧
    newtonCotesClosedWeights 0 = [1] := by
  constructor
  · rfl
  · rfl

/-! ### The LiuVinokur index-8 and index-12 weight identities

Both rules put weights `(K*α₂ - 7)/(420 α₁² (α₂ - α₁))` (and symmetric) on
two `_r_alpha` orbits, with `α₁, α₂` the roots of a quadratic.  Their sum
is evaluated through the symmetric functions of the roots. -/

/-- Partial-fraction identity for the two orbit weights. -/
theorem pairWeightSum (K a b : ℝ) (ha : a ≠ 0) (hb : b ≠ 0) (hab : a ≠ b) :
    (K * b - 7) / (420 * a^2 * (b - a)) + (K * a - 7) / (420 * b^2 * (a - b))
      = (K * ((a + b)^2 - a * b) - 7 * (a + b)) / (420 * (a * b)^2) := by
  have h1 : b - a ≠ 0 := sub_ne_zero.mpr (Ne.symm hab)
  have h2 : a - b ≠ 0 := sub_ne_zero.mpr hab
  field_simp
  ring

theorem sqrt11_sq : Real.sqrt 11 ^ 2 = 11 := Real.sq_sqrt (by norm_num)

theorem sqrt11_lt : Real.sqrt 11 < 339/100 := by
  nlinarith [sqrt11_sq, Real.sqrt_nonneg 11]

theorem sqrt11_gt : (154:ℝ)/51 < Real.sqrt 11 := by
  nlinarith [sqrt11_sq, Real.sqrt_nonneg 11]

theorem lv8t_sq :
    Real.sqrt (65944 - 19446 * Real.sqrt 11) ^ 2
      = 65944 - 19446 * Real.sqrt 11 :=
  Real.sq_sqrt (by nlinarith [sqrt11_lt, Real.sqrt_nonneg 11])

theorem lv8t_pos : 0 < Real.sqrt (65944 - 19446 * Real.sqrt 11) :=
  Real.sqrt_pos.mpr (by nlinarith [sqrt11_lt, Real.sqrt_nonneg 11])

theorem lv8alpha1_pos : 0 < lv8alpha1 := by
  unfold lv8alpha1
  have h1 := lv8t_pos
  have h2 := sqrt11_gt
  linarith

theorem lv8alpha2_neg : lv8alpha2 < 0 := by
  unfold lv8alpha2
  have h1 := lv8t_pos
  have h2 := lv8t_sq
  have h3 := sqrt11_lt
  have h4 := sqrt11_gt
  nlinarith [sqrt11_sq]

/-- The symmetric function `α₁ + α₂` of LiuVinokur index 8. -/
theorem lv8_sum_roots :
    lv8alpha1 + lv8alpha2 = (102 * Real.sqrt 11 - 308) / 89 := by
  unfold lv8alpha1 lv8alpha2
  ring

/-- The symmetric function `α₁ * α₂` of LiuVinokur index 8. -/
theorem lv8_prod_roots :
    lv8alpha1 * lv8alpha2 = (42 * Real.sqrt 11 - 153) / 89 := by
  unfold lv8alpha1 lv8alpha2
  linear_combination (2601/7921) * sqrt11_sq - (1/7921) * lv8t_sq

/-- The LiuVinokur index-8 orbit weights sum to `31/140` per pair. -/
theorem lv8_pair_halves :
    (17 * lv8alpha2 - 7) / (420 * lv8alpha1^2 * (lv8alpha2 - lv8alpha1))
      + (17 * lv8alpha1 - 7)
          / (420 * lv8alpha2^2 * (lv8alpha1 - lv8alpha2)) = 31/140 := by
  have ha := lv8alpha1_pos
  have hb := lv8alpha2_neg
  have hab : lv8alpha1 ≠ lv8alpha2 := by linarith
  rw [pairWeightSum 17 _ _ (by linarith) (by linarith) hab,
    lv8_sum_roots, lv8_prod_roots]
  have hπ : (42 * Real.sqrt 11 - 153) / 89 ≠ 0 := by
    have := sqrt11_lt
    intro h
    rw [div_eq_zero_iff] at h
    rcases h with h | h
    · nlinarith
    · norm_num at h
  rw [div_eq_iff (by positivity)]
  linear_combination (12816/7921 : ℝ) * sqrt11_sq

theorem sqrt79_sq : Real.sqrt 79 ^ 2 = 79 := Real.sq_sqrt (by norm_num)

theorem sqrt79_gt : (8:ℝ) < Real.sqrt 79 := by
  nlinarith [sqrt79_sq, Real.sqrt_nonneg 79]

theorem sqrt79_lt : Real.sqrt 79 < 9 := by
  nlinarith [sqrt79_sq, Real.sqrt_nonneg 79]

/-- The argument of `acos` in `lmbda` lies in `[0, 1]`. -/
theorem lv12x_bounds :
    0 ≤ 67 * Real.sqrt 79 / 24964 ∧ 67 * Real.sqrt 79 / 24964 ≤ 1 :=
  ⟨by positivity, by nlinarith [sqrt79_lt, Real.sqrt_nonneg 79]⟩

/-- Triple-angle identity: the cosine in `lmbda` solves
`4 c³ - 3 c = 67 sqrt 79 / 24964`. -/
theorem lv12_trig :
    4 * Real.cos ((Real.arccos (67 * Real.sqrt 79 / 24964)
        + 2 * Real.pi) / 3) ^ 3
      - 3 * Real.cos ((Real.arccos (67 * Real.sqrt 79 / 24964)
        + 2 * Real.pi) / 3)
      = 67 * Real.sqrt 79 / 24964 := by
  obtain ⟨hx0, hx1⟩ := lv12x_bounds
  have h3 : 3 * ((Real.arccos (67 * Real.sqrt 79 / 24964)
      + 2 * Real.pi) / 3)
      = Real.arccos (67 * Real.sqrt 79 / 24964) + 2 * Real.pi := by ring
  rw [← Real.cos_three_mul, h3, Real.cos_add_two_pi,
    Real.cos_arccos (by linarith) hx1]

/-- The cosine in `lmbda` is at most `-1/2`. -/
theorem lv12_cos_le :
    Real.cos ((Real.arccos (67 * Real.sqrt 79 / 24964) + 2 * Real.pi) / 3)
      ≤ -(1/2) := by
  have hpi := Real.pi_pos
  have h0 := Real.arccos_nonneg (67 * Real.sqrt 79 / 24964)
  have h1 := Real.arccos_le_pi (67 * Real.sqrt 79 / 24964)
  have hmono := Real.strictAntiOn_cos.antitoneOn
  have hmem1 : 2 * Real.pi / 3 ∈ Set.Icc 0 Real.pi :=
    ⟨by linarith, by linarith⟩
  have hmem2 : (Real.arccos (67 * Real.sqrt 79 / 24964) + 2 * Real.pi) / 3
      ∈ Set.Icc 0 Real.pi := ⟨by linarith, by linarith⟩
  have hle := hmono hmem1 hmem2 (by linarith)
  have hval : Real.cos (2 * Real.pi / 3) = -(1/2) := by
    rw [show 2 * Real.pi / 3 = Real.pi - Real.pi / 3 by ring,
      Real.cos_pi_sub, Real.cos_pi_div_three]
  linarith [hval ▸ hle]

/-- `lmbda < 28/3`: the bound that keeps every denominator of index 12
away from zero. -/
theorem lv12lambda_lt : lv12lambda < 28/3 := by
  have hcos := lv12_cos_le
  have hr8 := sqrt79_gt
  have hmul := mul_le_mul_of_nonneg_left hcos
    (show (0:ℝ) ≤ 4 * Real.sqrt 79 by positivity)
  unfold lv12lambda
  nlinarith [hmul, hr8]

/-- `lmbda` satisfies the cubic `9 λ³ - 284 λ² + 2800 λ - 8512 = 0`. -/
theorem lv12_cubic :
    9 * lv12lambda^3 - 284 * lv12lambda^2 + 2800 * lv12lambda - 8512
      = 0 := by
  have hr2 := sqrt79_sq
  have htrig := lv12_trig
  unfold lv12lambda
  linear_combination (1024/2187) * Real.sqrt 79 ^ 3 * htrig
    + ((64/2187) * (48 * Real.cos ((Real.arccos (67 * Real.sqrt 79 / 24964)
        + 2 * Real.pi) / 3) * Real.sqrt 79
      + (268/6241) * (Real.sqrt 79 ^ 2 + 79))) * hr2

/-- The discriminant of index 12 is positive. -/
theorem lv12disc_pos :
    0 < 9 * lv12lambda^2 - 248 * lv12lambda + 1680 := by
  have h := lv12lambda_lt
  nlinarith [sq_nonneg (lv12lambda - 28/3)]

theorem lv12t_sq :
    Real.sqrt (9 * lv12lambda^2 - 248 * lv12lambda + 1680) ^ 2
      = 9 * lv12lambda^2 - 248 * lv12lambda + 1680 :=
  Real.sq_sqrt (le_of_lt lv12disc_pos)

theorem lv12t_pos :
    0 < Real.sqrt (9 * lv12lambda^2 - 248 * lv12lambda + 1680) :=
  Real.sqrt_pos.mpr lv12disc_pos

theorem lv12alpha1_pos : 0 < lv12alpha1 := by
  unfold lv12alpha1
  have h1 := lv12t_pos
  have h2 := lv12lambda_lt
  apply div_pos <;> linarith

theorem lv12alpha2_neg : lv12alpha2 < 0 := by
  unfold lv12alpha2
  have h1 := lv12t_pos
  have h2 := lv12lambda_lt
  have h3 := lv12t_sq
  have ht' : 28 - 3 * lv12lambda
      < Real.sqrt (9 * lv12lambda^2 - 248 * lv12lambda + 1680) := by
    nlinarith [sq_nonneg (Real.sqrt (9 * lv12lambda^2 - 248 * lv12lambda
      + 1680) - (28 - 3 * lv12lambda))]
  apply div_neg_of_neg_of_pos <;> linarith

/-- Clearing the constructor's denominator for `alpha1`. -/
theorem lv12alpha1_lin :
    (112 - 10 * lv12lambda) * lv12alpha1
      = Real.sqrt (9 * lv12lambda^2 - 248 * lv12lambda + 1680)
        + 28 - 3 * lv12lambda := by
  have h2 := lv12lambda_lt
  have hD : (112 - 10 * lv12lambda) ≠ 0 := by linarith
  unfold lv12alpha1
  field_simp

/-- Clearing the constructor's denominator for `alpha2`. -/
theorem lv12alpha2_lin :
    (112 - 10 * lv12lambda) * lv12alpha2
      = -Real.sqrt (9 * lv12lambda^2 - 248 * lv12lambda + 1680)
        + 28 - 3 * lv12lambda := by
  have h2 := lv12lambda_lt
  have hD : (112 - 10 * lv12lambda) ≠ 0 := by linarith
  unfold lv12alpha2
  field_simp

/-- `alpha1` is a root of `(56-5λ) α² - (28-3λ) α - 4`. -/
theorem lv12quadratic1 :
    (56 - 5 * lv12lambda) * lv12alpha1^2
      = (28 - 3 * lv12lambda) * lv12alpha1 + 4 := by
  have h2 := lv12lambda_lt
  have hD2 : ((112 - 10 * lv12lambda)^2) ≠ 0 :=
    pow_ne_zero 2 (ne_of_gt (by linarith))
  apply mul_left_cancel₀ hD2
  linear_combination ((56 - 5 * lv12lambda)
      * ((112 - 10 * lv12lambda) * lv12alpha1
        + (Real.sqrt (9 * lv12lambda^2 - 248 * lv12lambda + 1680)
          + 28 - 3 * lv12lambda))
    - (28 - 3 * lv12lambda) * (112 - 10 * lv12lambda)) * lv12alpha1_lin
    + (56 - 5 * lv12lambda) * lv12t_sq

/-- `alpha2` is a root of the same quadratic. -/
theorem lv12quadratic2 :
    (56 - 5 * lv12lambda) * lv12alpha2^2
      = (28 - 3 * lv12lambda) * lv12alpha2 + 4 := by
  have h2 := lv12lambda_lt
  have hD2 : ((112 - 10 * lv12lambda)^2) ≠ 0 :=
    pow_ne_zero 2 (ne_of_gt (by linarith))
  apply mul_left_cancel₀ hD2
  linear_combination ((56 - 5 * lv12lambda)
      * ((112 - 10 * lv12lambda) * lv12alpha2
        + (-Real.sqrt (9 * lv12lambda^2 - 248 * lv12lambda + 1680)
          + 28 - 3 * lv12lambda))
    - (28 - 3 * lv12lambda) * (112 - 10 * lv12lambda)) * lv12alpha2_lin
    + (56 - 5 * lv12lambda) * lv12t_sq

/-- Sum of the two roots. -/
theorem lv12_sum_roots :
    (56 - 5 * lv12lambda) * (lv12alpha1 + lv12alpha2)
      = 28 - 3 * lv12lambda := by
  have h1 := lv12alpha1_pos
  have h2 := lv12alpha2_neg
  have hab : lv12alpha1 - lv12alpha2 ≠ 0 := by linarith
  have hdiff : (lv12alpha1 - lv12alpha2)
      * ((56 - 5 * lv12lambda) * (lv12alpha1 + lv12alpha2)
        - (28 - 3 * lv12lambda)) = 0 := by
    linear_combination lv12quadratic1 - lv12quadratic2
  rcases mul_eq_zero.mp hdiff with h | h
  · exact absurd h hab
  · linarith [h]

/-- Product of the two roots. -/
theorem lv12_prod_roots :
    (56 - 5 * lv12lambda) * (lv12alpha1 * lv12alpha2) = -4 := by
  linear_combination ((lv12alpha1 + lv12alpha2) / 2) * lv12_sum_roots
    - (1/2) * lv12quadratic1 - (1/2) * lv12quadratic2

/-- The LiuVinokur index-12 orbit weights sum to `1/4 - λ²/560` per
pair. -/
theorem lv12_pair_halves :
    ((21 - lv12lambda) * lv12alpha2 - 7)
        / (420 * lv12alpha1^2 * (lv12alpha2 - lv12alpha1))
      + ((21 - lv12lambda) * lv12alpha1 - 7)
        / (420 * lv12alpha2^2 * (lv12alpha1 - lv12alpha2))
      = 1/4 - lv12lambda^2 / 560 := by
  have ha := lv12alpha1_pos
  have hb := lv12alpha2_neg
  have hab : lv12alpha1 ≠ lv12alpha2 := by linarith
  rw [pairWeightSum (21 - lv12lambda) _ _ (by linarith) (by linarith) hab]
  have habne : lv12alpha1 * lv12alpha2 ≠ 0 :=
    mul_ne_zero (by linarith) (by linarith)
  rw [div_eq_iff (by
    apply mul_ne_zero (by norm_num : (420:ℝ) ≠ 0) (pow_ne_zero 2 habne))]
  have hDh2 : ((56 - 5 * lv12lambda)^2) ≠ 0 := by
    have := lv12lambda_lt
    exact pow_ne_zero 2 (ne_of_gt (by linarith))
  apply mul_left_cancel₀ hDh2
  linear_combination ((21 - lv12lambda)
      * ((56 - 5 * lv12lambda) * (lv12alpha1 + lv12alpha2)
        + (28 - 3 * lv12lambda))
      - 7 * (56 - 5 * lv12lambda)) * lv12_sum_roots
    + (-(21 - lv12lambda) * (56 - 5 * lv12lambda)
      - (105 - (3/4) * lv12lambda^2)
        * ((56 - 5 * lv12lambda) * (lv12alpha1 * lv12alpha2) - 4))
      * lv12_prod_roots
    - lv12_cubic

/-- **C2.** For every non-degenerate tetrahedron, integrating the constant
`1` with the single-point degree-1 scheme `Keast(0)` returns the true
volume `|det| / 6` of the edge-vector determinant; on the reference
tetrahedron the result is exactly `1/6`. -/
theorem keast0_constant_integral_volume :
    (∀ tet : Tet4, edgeDet tet ≠ 0 →
      (keastR 0).map (integrate (fun _ => 1) tet)
        = some (|edgeDet tet| / 6)) ∧
    (keastR 0).map (integrate (fun _ => 1) refTet) = some (1/6) := by
  have key : ∀ tet : Tet4,
      (keastR 0).map (integrate (fun _ => 1) tet)
        = some (|edgeDet tet| / 6) := by
    intro tet
    have h0 : keastR 0 = some ((assembleQ [(1, _s4)] 1).toR) := rfl
    rw [h0]
    show some _ = some _
    congr 1
    simp [integrate, TetSchemeQ.toR, assembleQ, _s4, dropBary0, abs_mul]
    rw [show |(6:ℝ)⁻¹| = 6⁻¹ by norm_num]
    ring
  exact ⟨fun tet _ => key tet,
    by rw [key refTet]; norm_num [edgeDet, refTet]⟩

/-- **C2 witness.** The reference tetrahedron is non-degenerate and the
constant integral over it is its volume. -/
theorem keast0_constant_integral_volume_witness :
    edgeDet refTet ≠ 0 ∧
    (keastR 0).map (integrate (fun _ => 1) refTet)
      = some (|edgeDet refTet| / 6) :=
  ⟨by norm_num [edgeDet, refTet],
   keast0_constant_integral_volume.1 refTet
     (by norm_num [edgeDet, refTet])⟩

/-- **C3.** Integrating the monomial `x` over the reference tetrahedron
with the degree-2 four-point rule `Keast(1)` (the `_s31` orbit with
`a = 0.1381966011250105` and weights `0.25`) gives exactly `1/24`. -/
theorem keast1_integrates_x_exactly :
    (keastR 1).map (integrate (fun p => p.1) refTet) = some (1/24) := by
  have h1 : keastR 1
      = some ((assembleQ [(0.25, _s31 0.1381966011250105)] 2).toR) := rfl
  rw [h1]
  show some _ = some _
  congr 1
  simp [integrate, TetSchemeQ.toR, assembleQ, _s31, dropBary0, mapPt,
    refTet, edgeDet, abs_mul]
  rw [show |(6:ℝ)⁻¹| = 6⁻¹ by norm_num]
  norm_num

/-- Weight sum of an assembled real scheme: each group contributes its
orbit size times its weight. -/
theorem assembleR_weight_sum (groups : List (ℝ × List (Bary4 ℝ)))
    (dg : ℕ) :
    (assembleR groups dg).weights.sum
      = (groups.map fun g => (g.2.length : ℝ) * g.1).sum := by
  unfold assembleR
  rw [List.sum_flatten, List.map_map]
  congr 1
  apply List.map_congr_left
  intro g _
  simp [List.sum_replicate, nsmul_eq_mul]

/-- The spec-modelled `_s` helper returns `2 n` points. -/
theorem sncube_length (n : ℕ) (a b : ℝ) :
    (_sncube n a b).length = 2 * n := by
  unfold _sncube
  rw [List.length_flatten, List.map_map]
  have : ((List.range n).map
      ((fun l => List.length l) ∘ (fun i =>
        [(List.range n).map fun j => if j = i then b else a,
         (List.range n).map fun j => if j = i then -b else a]))).sum
      = ((List.range n).map fun _ => 2).sum := by
    congr 1
  rw [this, List.map_const', List.sum_replicate, List.length_range]
  rw [smul_eq_mul]
  ring

/-- Sum of a list after multiplying every entry by a constant. -/
theorem sum_map_mul_const (l : List ℝ) (c : ℝ) :
    (l.map fun w => w * c).sum = l.sum * c := by
  induction l with
  | nil => simp
  | cons x xs ih => simp [ih, add_mul]

/-- The `stroud_1957_2` weights sum to the reference volume `2^n`:
the `+r` and `-r` orbit weights cancel, leaving `1` before the
rescaling. -/
theorem stroud2_weight_sum (n : ℕ) :
    (stroud_1957_2 n).weights.sum = 2^n := by
  unfold stroud_1957_2 untangle
  rw [sum_map_mul_const]
  simp only [List.map_cons, List.map_nil, List.flatten_cons,
    List.flatten_nil, List.append_nil, List.sum_append,
    List.sum_replicate, List.length_cons, List.length_nil,
    sncube_length]
  simp [nsmul_eq_mul]

/-- The `stroud_1957_3` weights are `2 n` copies of `1/(2n) * 2^n`. -/
theorem stroud3_weights (n : ℕ) :
    (stroud_1957_3 n).weights
      = List.replicate (2 * n) ((1 : ℝ) / (2 * n) * 2^n) := by
  unfold stroud_1957_3 untangle
  simp [List.map_replicate]

/-- The `stroud_1957_3` weights sum to the reference volume `2^n`. -/
theorem stroud3_weight_sum (n : ℕ) (hn : 1 ≤ n) :
    (stroud_1957_3 n).weights.sum = 2^n := by
  rw [stroud3_weights, List.sum_replicate, nsmul_eq_mul]
  have h2n : ((2 * n : ℕ) : ℝ) ≠ 0 := by
    push_cast
    positivity
  push_cast
  push_cast at h2n
  field_simp

/-- Weight sum of an assembled rational scheme. -/
theorem assembleQ_weight_sum (groups : List (ℚ × List (Bary4 ℚ)))
    (dg : ℕ) :
    (assembleQ groups dg).weights.sum
      = (groups.map fun g => (g.2.length : ℚ) * g.1).sum := by
  unfold assembleQ
  rw [List.sum_flatten, List.map_map]
  congr 1
  apply List.map_congr_left
  intro g _
  simp [List.sum_replicate, nsmul_eq_mul]

/-- **C1 counterexample.** The claim's exact equality fails on the code:
the tabulated decimal weights of `Keast(3)` sum to
`5000000000000001/5000000000000000`, not `1`. -/
theorem keast3_weight_sum_ne_one :
    (keast 3).map (fun s => s.weights.sum) ≠ some 1 := by
  intro hcontra
  have h2 := Option.some.inj hcontra
  simp only [assembleQ_weight_sum] at h2
  norm_num [_s31, _s22] at h2

/-- **C1 (amended).** For every scheme the constructors produce, the
weight sum equals the reference volume up to the accuracy of the decimal
tables: within `5 * 10^-15` of `1` for the `Keast`, `Yu` and `ShunnHam`
schemes (normalized, before rescaling), exactly `1` for every
`LiuVinokur` scheme — in particular the `+r`/`-r`-style cancellations —
and exactly `2^n` for the n-cube builders `stroud_1957_2` (whose `+r` and
`-r` orbit weights cancel to leave `1` before the `2^n` rescale) and
`stroud_1957_3`. -/
theorem scheme_weight_sums :
    (∀ (i : ℤ) (s : TetSchemeQ), keast i = some s →
      |s.weights.sum - 1| ≤ 5/10^15) ∧
    (∀ (i : ℤ) (s : TetSchemeQ), yu i = some s →
      |s.weights.sum - 1| ≤ 5/10^15) ∧
    (∀ (i : ℤ) (s : TetSchemeQ), shunnHam i = some s →
      |s.weights.sum - 1| ≤ 5/10^15) ∧
    (∀ (i : ℤ) (s : TetSchemeR), liuVinokur i = some s →
      s.weights.sum = 1) ∧
    (∀ n : ℕ, 1 ≤ n → (stroud_1957_2 n).weights.sum = 2^n) ∧
    (∀ n : ℕ, 1 ≤ n → (stroud_1957_3 n).weights.sum = 2^n) := by
  refine ⟨?_, ?_, ?_, ?_, fun n _ => stroud2_weight_sum n,
    fun n hn => stroud3_weight_sum n hn⟩
  · intro i s h
    have hi : 0 ≤ i ∧ i ≤ 10 := by
      by_contra hc
      rw [keast_out i hc] at h
      exact Option.noConfusion h
    obtain ⟨hl, hr⟩ := hi
    interval_cases i <;>
      (obtain rfl := Option.some.inj h
       rw [assembleQ_weight_sum]
       norm_num [_s4, _s31, _s22, _s211, abs_le])
  · intro i s h
    have hi : 1 ≤ i ∧ i ≤ 5 := by
      by_contra hc
      rw [yu_out i hc] at h
      exact Option.noConfusion h
    obtain ⟨hl, hr⟩ := hi
    interval_cases i <;>
      (obtain rfl := Option.some.inj h
       rw [assembleQ_weight_sum]
       norm_num [_s4, _s31, _s22, _s211, abs_le])
  · intro i s h
    have hi : 1 ≤ i ∧ i ≤ 6 := by
      by_contra hc
      rw [shunnHam_out i hc] at h
      exact Option.noConfusion h
    obtain ⟨hl, hr⟩ := hi
    interval_cases i <;>
      (obtain rfl := Option.some.inj h
       rw [assembleQ_weight_sum]
       norm_num [_s4, _s31, _s22, _s211, abs_le])
  · intro i s h
    have hi : 1 ≤ i ∧ i ≤ 14 := by
      by_contra hc
      rw [liuVinokur_out i hc] at h
      exact Option.noConfusion h
    obtain ⟨hl, hr⟩ := hi
    interval_cases i <;> obtain rfl := Option.some.inj h
    · rw [assembleR_weight_sum]; simp [_s4]
    · rw [assembleR_weight_sum]; simp [_r_alpha]; norm_num
    · rw [assembleR_weight_sum]; simp [_r_alpha]; norm_num
    · rw [assembleR_weight_sum]; simp [_s4, _r_alpha]; norm_num
    · rw [assembleR_weight_sum]; simp [_s4, _r_alpha]; norm_num
    · rw [assembleR_weight_sum]; simp [_r_alpha]; norm_num
    · rw [assembleR_weight_sum]; simp [_s4, _r_alpha, _r_beta]; norm_num
    · rw [assembleR_weight_sum]; simp [_r_alpha, _r_beta]
      linarith [lv8_pair_halves]
    · rw [assembleR_weight_sum]; simp [_s4, _r_alpha, _r_beta]; norm_num
    · rw [assembleR_weight_sum]
      simp [_s4, _r_alpha, _r_gamma_delta]; norm_num
    · rw [assembleR_weight_sum]; simp [_r_alpha, _r_beta]; ring_nf
    · rw [assembleR_weight_sum]; simp [_r_alpha, _r_beta]
      linarith [lv12_pair_halves]
    · rw [assembleR_weight_sum]; simp [_s4, _r_alpha, _r_beta]; ring_nf
    · rw [assembleR_weight_sum]; simp [_s4, _r_alpha, _r_beta]; norm_num

/-- **C1 witness.** Concrete instances: `Keast(10)` is within tolerance,
`LiuVinokur(1)` sums exactly to `1`, and `stroud_1957_2 3` sums to
`2^3`. -/
theorem scheme_weight_sums_witness :
    (keast 10 = some (assembleQ
      [(6 * -0.0393270066412926145, _s4),
       (6 * 0.00408131605934270525, _s31 0.127470936566639015),
       (6 * 0.000658086773304341943, _s31 0.0320788303926322960),
       (6 * 0.00438425882512284693, _s22 0.0497770956432810185),
       (6 * 0.0138300638425098166, _s22 0.183730447398549945),
       (6 * 0.00424043742468372453,
          _s211 0.231901089397150906 0.0229177878448171174),
       (6 * 0.00223873973961420164,
          _s211 0.0379700484718286102 0.730313427807538396)] 8)) ∧
    |((assembleQ
      [(6 * -0.0393270066412926145, _s4),
       (6 * 0.00408131605934270525, _s31 0.127470936566639015),
       (6 * 0.000658086773304341943, _s31 0.0320788303926322960),
       (6 * 0.00438425882512284693, _s22 0.0497770956432810185),
       (6 * 0.0138300638425098166, _s22 0.183730447398549945),
       (6 * 0.00424043742468372453,
          _s211 0.231901089397150906 0.0229177878448171174),
       (6 * 0.00223873973961420164,
          _s211 0.0379700484718286102 0.730313427807538396)] 8)).weights.sum
      - 1| ≤ 5/10^15 ∧
    (1 ≤ 3 ∧ (stroud_1957_2 3).weights.sum = 2^3) :=
  ⟨rfl,
   scheme_weight_sums.1 10 _ rfl,
   by norm_num, scheme_weight_sums.2.2.2.2.1 3 (by norm_num)⟩

/-! ## C7: the node arithmetic of the Newton-Cotes solver -/

/-- The values binary floating point can represent exactly are the dyadic
rationals `a / 2^e`. -/
def IsDyadic (q : ℚ) : Prop := ∃ (a : ℤ) (e : ℕ), q = a / 2^e

/-- **C7.** The exact closed node `point_fun(1, 3) = 1/3` is not a dyadic
rational, so the float division `k / float(n)` of the source cannot
produce it: the coefficients sympy receives for `n = 3` are rounded
binary floats, not the exact rationals required by the claim. -/
theorem closed_node_not_dyadic :
    closedNode 3 1 = 1/3 ∧ ¬ IsDyadic (closedNode 3 1) := by
  have hval : closedNode 3 1 = 1/3 := by norm_num [closedNode]
  refine ⟨hval, ?_⟩
  rw [hval]
  rintro ⟨a, e, he⟩
  have h2 : (2:ℚ)^e = 3 * a := by
    rw [div_eq_div_iff (by norm_num) (by positivity)] at he
    linarith
  have h3 : (2^e : ℤ) = 3 * a := by exact_mod_cast h2
  have h4 : (3:ℤ) ∣ 2^e := Dvd.intro a h3.symm
  have h5 : (3:ℤ) ∣ 2 := Int.prime_three.dvd_of_dvd_pow h4
  norm_num at h5

/-! ## C8: structure of `stroud_1957_3` -/

/-- The stacked rows count `2 * floor(n/2)` trigonometric rows plus the
alternating row exactly when `n` is odd, `n` rows in total. -/
theorem stroudRows_length (n : ℕ) : (stroudRows n).length = n := by
  unfold stroudRows
  rw [List.length_append, List.length_flatten, List.map_map]
  have h2 : ∀ n2 : ℕ, ((List.range n2).map
      ((fun l => List.length l) ∘ (fun k' =>
        [(List.range (2 * n)).map fun i' =>
           Real.sqrt (2/3) *
             Real.cos (((2 * (k'+1) - 1 : ℕ) : ℝ) * ((i'+1 : ℕ) : ℝ)
               * Real.pi / n),
         (List.range (2 * n)).map fun i' =>
           Real.sqrt (2/3) *
             Real.sin (((2 * (k'+1) - 1 : ℕ) : ℝ) * ((i'+1 : ℕ) : ℝ)
               * Real.pi / n)]))).sum = 2 * n2 := by
    intro n2
    rw [show ((List.range n2).map
        ((fun l => List.length l) ∘ _)).sum
        = ((List.range n2).map fun _ => 2).sum from by congr 1]
    rw [List.map_const', List.sum_replicate, List.length_range,
      smul_eq_mul]
    ring
  rcases Nat.even_or_odd n with he | ho
  · have hmod : n % 2 = 0 := Nat.even_iff.mp he
    rw [if_pos hmod, if_neg (by omega)]
    rw [h2]
    simp
    omega
  · have hmod : n % 2 = 1 := Nat.odd_iff.mp ho
    rw [if_neg (by omega), if_pos hmod]
    rw [h2]
    simp
    omega

/-- The point list of `stroud_1957_3` is the transposed row matrix. -/
theorem stroud3_points (n : ℕ) :
    (stroud_1957_3 n).points
      = (List.range (2 * n)).map
          (fun j => (stroudRows n).map fun row => row.getD j 0) := by
  unfold stroud_1957_3 untangle
  simp

/-- **C8.** For every `n ≥ 1`, `stroud_1957_3 n` has exactly `2n` points
of dimension `n`, each carrying the equal weight `2^n/(2n)`, and exactly
when `n` is odd the final coordinate of point `j` comes from the appended
alternating `1/sqrt 3` row: it is `-(1/sqrt 3)` at odd `j` and `1/sqrt 3`
at even `j`. -/
theorem stroud_1957_3_structure (n : ℕ) (hn : 1 ≤ n) :
    ((stroud_1957_3 n).points.length = 2 * n) ∧
    (∀ p ∈ (stroud_1957_3 n).points, p.length = n) ∧
    ((stroud_1957_3 n).weights.length = 2 * n) ∧
    (∀ w ∈ (stroud_1957_3 n).weights, w = 2^n / (2 * n)) ∧
    (n % 2 = 1 → ∀ j < 2 * n,
      ((stroud_1957_3 n).points.getD j []).getD (n - 1) 0
        = if j % 2 = 1 then -(1 / Real.sqrt 3) else 1 / Real.sqrt 3) := by
  refine ⟨?_, ?_, ?_, ?_, ?_⟩
  · rw [stroud3_points, List.length_map, List.length_range]
  · intro p hp
    rw [stroud3_points] at hp
    obtain ⟨j, -, rfl⟩ := List.mem_map.mp hp
    rw [List.length_map, stroudRows_length]
  · rw [stroud3_weights, List.length_replicate]
  · intro w hw
    rw [stroud3_weights] at hw
    have := List.eq_of_mem_replicate hw
    rw [this]
    ring
  · intro hodd j hj
    rw [stroud3_points]
    simp only [List.getD_eq_getElem?_getD]
    rw [List.getElem?_map, List.getElem?_range hj]
    simp only [Option.map_some', Option.getD_some]
    unfold stroudRows
    rw [if_neg (by omega), if_pos hodd]
    set A : List (List ℝ) := ((List.range ((n-1)/2)).map fun k' =>
      [(List.range (2 * n)).map fun i' =>
         Real.sqrt (2/3) *
           Real.cos (((2 * (k'+1) - 1 : ℕ) : ℝ) * ((i'+1 : ℕ) : ℝ)
             * Real.pi / n),
       (List.range (2 * n)).map fun i' =>
         Real.sqrt (2/3) *
           Real.sin (((2 * (k'+1) - 1 : ℕ) : ℝ) * ((i'+1 : ℕ) : ℝ)
             * Real.pi / n)]).flatten with hA
    have hAlen : A.length = n - 1 := by
      rw [hA, List.length_flatten, List.map_map]
      rw [show ((List.range ((n-1)/2)).map
          ((fun l => List.length l) ∘ _)).sum
          = ((List.range ((n-1)/2)).map fun _ => 2).sum from by congr 1]
      rw [List.map_const', List.sum_replicate, List.length_range,
        smul_eq_mul]
      omega
    rw [List.map_append]
    rw [List.getElem?_append_right
      (le_of_eq (by rw [List.length_map, hAlen]))]
    rw [List.length_map, hAlen]
    simp only [List.map_cons, List.map_nil]
    rw [show n - 1 - (n - 1) = 0 from by omega]
    simp only [List.getElem?_cons_zero, Option.getD_some]
    unfold stroudAltRow
    rw [List.getElem?_map, List.getElem?_range hj]
    simp

/-- **C8 witness.** The dimension-3 instance: `stroud_1957_3 3` has
`6` points. -/
theorem stroud_1957_3_structure_witness :
    1 ≤ 3 ∧ (stroud_1957_3 3).points.length = 2 * 3 :=
  ⟨by norm_num, (stroud_1957_3_structure 3 (by norm_num)).1⟩

/-! ## C6: the Newton–Cotes weight sums

The linear functional `silvesterSum` is invariant under multiplication by
`t₀ + t₁ + t₂ + t₃` (the factorial identity integrates over the simplex,
where the barycentric coordinates sum to 1), and the product of the four
Lagrange factors is a generalized binomial, so the lattice sum collapses
through the Chu–Vandermonde identity. -/

theorem silvesterSum_def (g : MvPolynomial (Fin 4) ℚ) :
    silvesterSum g = Finsupp.sum g fun m c => c * silvesterCoeff m := rfl

theorem silvesterSum_zero : silvesterSum 0 = 0 := by
  rw [silvesterSum_def]
  exact Finsupp.sum_zero_index

theorem silvesterSum_monomial (m : Fin 4 →₀ ℕ) (c : ℚ) :
    silvesterSum (MvPolynomial.monomial m c) = c * silvesterCoeff m := by
  rw [show (MvPolynomial.monomial m c : MvPolynomial (Fin 4) ℚ)
      = Finsupp.single m c from (MvPolynomial.single_eq_monomial m c).symm,
    silvesterSum_def]
  exact Finsupp.sum_single_index (zero_mul _)

theorem silvesterSum_add (p q : MvPolynomial (Fin 4) ℚ) :
    silvesterSum (p + q) = silvesterSum p + silvesterSum q := by
  rw [silvesterSum_def, silvesterSum_def, silvesterSum_def]
  exact Finsupp.sum_add_index' (fun m => zero_mul _)
    (fun m b c => add_mul b c _)

theorem silvesterSum_finset_sum {γ : Type} (s : Finset γ)
    (f : γ → MvPolynomial (Fin 4) ℚ) :
    silvesterSum (∑ x ∈ s, f x) = ∑ x ∈ s, silvesterSum (f x) := by
  induction s using Finset.cons_induction with
  | empty => simp [silvesterSum_zero]
  | cons a s ha ih =>
      rw [Finset.sum_cons, Finset.sum_cons, silvesterSum_add, ih]

theorem silvesterSum_C_mul (c : ℚ) (g : MvPolynomial (Fin 4) ℚ) :
    silvesterSum (MvPolynomial.C c * g) = c * silvesterSum g := by
  induction g using MvPolynomial.induction_on' with
  | h1 m a =>
      rw [MvPolynomial.C_mul_monomial, silvesterSum_monomial,
        silvesterSum_monomial]
      ring
  | h2 p q hp hq =>
      rw [mul_add, silvesterSum_add, hp, hq, silvesterSum_add]
      ring

/-- The factorial identity after one extra power of coordinate `s`. -/
theorem silvesterCoeff_add_single (m : Fin 4 →₀ ℕ) (s : Fin 4) :
    silvesterCoeff (m + Finsupp.single s 1)
      = (((m s + 1) : ℕ) : ℚ)
          * ((∏ t : Fin 4, Nat.factorial (m t) : ℕ) : ℚ) * 6
          / ((Nat.factorial ((∑ t : Fin 4, m t) + 4) : ℕ) : ℚ) := by
  unfold silvesterCoeff
  have hsum : (∑ t : Fin 4, ((m + Finsupp.single s 1 : Fin 4 →₀ ℕ)) t)
      = (∑ t : Fin 4, m t) + 1 := by
    simp [Finsupp.add_apply, Finsupp.single_apply, Finset.sum_add_distrib]
  have h1 : ∀ t ∈ Finset.univ.erase s,
      Nat.factorial (((m + Finsupp.single s 1 : Fin 4 →₀ ℕ)) t) = Nat.factorial (m t) := by
    intro t ht
    rw [Finsupp.add_apply, Finsupp.single_apply,
      if_neg (Ne.symm (Finset.mem_erase.mp ht).1), add_zero]
  have hprod : (∏ t : Fin 4, Nat.factorial (((m + Finsupp.single s 1 : Fin 4 →₀ ℕ)) t))
      = (m s + 1) * ∏ t : Fin 4, Nat.factorial (m t) := by
    rw [← Finset.mul_prod_erase Finset.univ
        (fun t => Nat.factorial (((m + Finsupp.single s 1 : Fin 4 →₀ ℕ)) t))
        (Finset.mem_univ s),
      Finset.prod_congr rfl h1,
      show ((m + Finsupp.single s 1 : Fin 4 →₀ ℕ)) s = m s + 1 by simp,
      Nat.factorial_succ, mul_assoc,
      Finset.mul_prod_erase Finset.univ (fun t => Nat.factorial (m t))
        (Finset.mem_univ s)]
  rw [hsum, hprod]
  rw [show (∑ t : Fin 4, m t) + 1 + 3 = (∑ t : Fin 4, m t) + 4 from by
    omega]
  push_cast
  ring

/-- Summed over the four coordinates, the extra power cancels: this is
the invariance of the factorial identity under one factor of
`t₀+t₁+t₂+t₃`. -/
theorem silvesterCoeff_four_sum (m : Fin 4 →₀ ℕ) :
    silvesterCoeff (m + Finsupp.single 0 1)
      + silvesterCoeff (m + Finsupp.single 1 1)
      + silvesterCoeff (m + Finsupp.single 2 1)
      + silvesterCoeff (m + Finsupp.single 3 1)
      = silvesterCoeff m := by
  rw [silvesterCoeff_add_single, silvesterCoeff_add_single,
    silvesterCoeff_add_single, silvesterCoeff_add_single]
  unfold silvesterCoeff
  have hN : (∑ t : Fin 4, m t) = m 0 + m 1 + m 2 + m 3 := Fin.sum_univ_four m
  have hfact : Nat.factorial ((∑ t : Fin 4, m t) + 4)
      = ((∑ t : Fin 4, m t) + 4) * Nat.factorial ((∑ t : Fin 4, m t) + 3) := by
    rw [show (∑ t : Fin 4, m t) + 4 = ((∑ t : Fin 4, m t) + 3) + 1 from by
      omega, Nat.factorial_succ]
  rw [hfact, hN]
  have hne : ((Nat.factorial (m 0 + m 1 + m 2 + m 3 + 3) : ℕ) : ℚ) ≠ 0 := by
    exact_mod_cast (Nat.factorial_pos _).ne'
  have hne4 : ((m 0 : ℚ) + m 1 + m 2 + m 3 + 4) ≠ 0 := by positivity
  push_cast
  push_cast at hne hne4
  field_simp
  ring

/-- The deferred-vector sum `t[0] + t[1] + t[2] + t[3]`. -/
noncomputable def tSum : MvPolynomial (Fin 4) ℚ :=
  MvPolynomial.X 0 + MvPolynomial.X 1 + MvPolynomial.X 2 + MvPolynomial.X 3

theorem monomial_mul_X (m : Fin 4 →₀ ℕ) (a : ℚ) (s : Fin 4) :
    MvPolynomial.monomial m a * MvPolynomial.X s
      = MvPolynomial.monomial (m + Finsupp.single s 1) a := by
  rw [MvPolynomial.monomial_add_single, pow_one]

/-- Multiplying by the coordinate sum does not change the Silvester
functional. -/
theorem silvesterSum_mul_tSum (g : MvPolynomial (Fin 4) ℚ) :
    silvesterSum (g * tSum) = silvesterSum g := by
  induction g using MvPolynomial.induction_on' with
  | h1 m a =>
      rw [tSum, mul_add, mul_add, mul_add, monomial_mul_X, monomial_mul_X,
        monomial_mul_X, monomial_mul_X, silvesterSum_add, silvesterSum_add,
        silvesterSum_add, silvesterSum_monomial, silvesterSum_monomial,
        silvesterSum_monomial, silvesterSum_monomial, silvesterSum_monomial,
        ← silvesterCoeff_four_sum m]
      ring
  | h2 p q hp hq =>
      rw [add_mul, silvesterSum_add, hp, hq, silvesterSum_add]

theorem silvesterCoeff_zero : silvesterCoeff 0 = 1 := by
  unfold silvesterCoeff
  simp
  norm_num [Nat.factorial]

theorem silvesterSum_tSum_pow (p : ℕ) : silvesterSum (tSum ^ p) = 1 := by
  induction p with
  | zero =>
      rw [pow_zero, show (1 : MvPolynomial (Fin 4) ℚ)
          = MvPolynomial.monomial 0 1 from by
            rw [← MvPolynomial.C_1, MvPolynomial.C_apply],
        silvesterSum_monomial, silvesterCoeff_zero, mul_one]
  | succ p ih => rw [pow_succ, silvesterSum_mul_tSum, ih]

/-- On univariate polynomials composed at the coordinate sum, the
Silvester functional is evaluation at 1 (the barycentric identity). -/
theorem silvesterSum_aeval_tSum (φ : Polynomial ℚ) :
    silvesterSum (Polynomial.aeval tSum φ) = Polynomial.eval 1 φ := by
  induction φ using Polynomial.induction_on with
  | h_C a =>
      rw [Polynomial.aeval_C, Polynomial.eval_C,
        show (algebraMap ℚ (MvPolynomial (Fin 4) ℚ)) a
          = MvPolynomial.C a from by rw [MvPolynomial.algebraMap_eq],
        MvPolynomial.C_apply, silvesterSum_monomial, silvesterCoeff_zero,
        mul_one]
  | h_add p q hp hq =>
      rw [map_add, silvesterSum_add, hp, hq, Polynomial.eval_add]
  | h_monomial n a ih =>
      rw [map_mul, map_pow, Polynomial.aeval_C, Polynomial.aeval_X,
        show (algebraMap ℚ (MvPolynomial (Fin 4) ℚ)) a
          = MvPolynomial.C a from by rw [MvPolynomial.algebraMap_eq],
        silvesterSum_C_mul, silvesterSum_tSum_pow, Polynomial.eval_mul,
        Polynomial.eval_pow, Polynomial.eval_C, Polynomial.eval_X]
      ring

/-- Falling-factorial product `(x)(x-1)...(x-n+1)`. -/
def descProd {R : Type} [CommRing R] (x : R) (n : ℕ) : R :=
  ∏ k ∈ Finset.range n, (x - (k : R))

theorem descProd_succ {R : Type} [CommRing R] (x : R) (n : ℕ) :
    descProd x (n+1) = descProd x n * (x - (n : R)) := by
  unfold descProd
  exact Finset.prod_range_succ _ _

/-- Chu–Vandermonde for falling factorials, over any commutative
ring. -/
theorem descProd_add_eq {R : Type} [CommRing R] (x y : R) (n : ℕ) :
    descProd (x + y) n
      = ∑ k ∈ Finset.range (n+1),
          (n.choose k : R) * descProd x k * descProd y (n - k) := by
  induction n with
  | zero => simp [descProd]
  | succ n ih =>
    rw [descProd_succ, ih, Finset.sum_mul]
    have hterm : ∀ k ∈ Finset.range (n+1),
        (n.choose k : R) * descProd x k * descProd y (n-k) * (x + y - (n : R))
          = (n.choose k : R) * descProd x (k+1) * descProd y (n-k)
            + (n.choose k : R) * descProd x k * descProd y (n+1-k) := by
      intro k hk
      have hkn : k ≤ n := Nat.lt_succ_iff.mp (Finset.mem_range.mp hk)
      rw [descProd_succ, show n+1-k = (n-k)+1 from by omega, descProd_succ]
      rw [Nat.cast_sub hkn]
      ring
    rw [Finset.sum_congr rfl hterm, Finset.sum_add_distrib]
    have hRHS : ∑ k ∈ Finset.range (n+2),
        ((n+1).choose k : R) * descProd x k * descProd y (n+1-k)
        = (∑ i ∈ Finset.range (n+1),
            (n.choose i : R) * descProd x (i+1) * descProd y (n-i))
          + ∑ k ∈ Finset.range (n+1),
            (n.choose k : R) * descProd x k * descProd y (n+1-k) := by
      rw [Finset.sum_range_succ']
      have hsplit : ∀ i ∈ Finset.range (n+1),
          (((n+1).choose (i+1) : R)) * descProd x (i+1)
              * descProd y (n+1-(i+1))
            = (n.choose i : R) * descProd x (i+1) * descProd y (n-i)
              + (n.choose (i+1) : R) * descProd x (i+1)
                  * descProd y (n-i) := by
        intro i hi
        rw [Nat.choose_succ_succ, show n+1-(i+1) = n-i from by omega]
        push_cast
        ring
      rw [Finset.sum_congr rfl hsplit, Finset.sum_add_distrib]
      have hre : (∑ i ∈ Finset.range (n+1),
            (n.choose (i+1) : R) * descProd x (i+1) * descProd y (n-i))
            + ((n+1).choose 0 : R) * descProd x 0 * descProd y (n+1-0)
          = ∑ k ∈ Finset.range (n+2),
            (n.choose k : R) * descProd x k * descProd y (n+1-k) := by
        symm
        rw [Finset.sum_range_succ']
        congr 1
        · apply Finset.sum_congr rfl
          intro i hi
          rw [show n+1-(i+1) = n-i from by omega]
        · norm_num
      have hlast : ∑ k ∈ Finset.range (n+2),
          (n.choose k : R) * descProd x k * descProd y (n+1-k)
          = ∑ k ∈ Finset.range (n+1),
            (n.choose k : R) * descProd x k * descProd y (n+1-k) := by
        rw [Finset.sum_range_succ, Nat.choose_succ_self]
        simp
      rw [add_assoc, hre, hlast]
    rw [hRHS]

/-- Generalized binomial `descProd x m / m!` over `Polynomial ℚ`. -/
noncomputable def bcP (x : Polynomial ℚ) (m : ℕ) : Polynomial ℚ :=
  Polynomial.C (1 / (Nat.factorial m : ℚ)) * descProd x m

/-- Generalized binomial over `MvPolynomial (Fin 4) ℚ`. -/
noncomputable def bcM (x : MvPolynomial (Fin 4) ℚ) (m : ℕ) :
    MvPolynomial (Fin 4) ℚ :=
  MvPolynomial.C (1 / (Nat.factorial m : ℚ)) * descProd x m

theorem choose_factor (n k : ℕ) (hkn : k ≤ n) :
    (1 / (n.factorial : ℚ)) * (n.choose k : ℚ)
      = (1 / (k.factorial : ℚ)) * (1 / ((n-k).factorial : ℚ)) := by
  have h := Nat.choose_mul_factorial_mul_factorial hkn
  have h1 : (k.factorial : ℚ) ≠ 0 := by
    exact_mod_cast (Nat.factorial_pos _).ne'
  have h2 : ((n-k).factorial : ℚ) ≠ 0 := by
    exact_mod_cast (Nat.factorial_pos _).ne'
  have h3 : (n.factorial : ℚ) ≠ 0 := by
    exact_mod_cast (Nat.factorial_pos _).ne'
  have h4 := congrArg (Nat.cast : ℕ → ℚ) h
  push_cast at h4
  field_simp
  linear_combination h4

/-- Chu–Vandermonde for the normalized binomials. -/
theorem bcM_add (x y : MvPolynomial (Fin 4) ℚ) (n : ℕ) :
    bcM (x + y) n = ∑ k ∈ Finset.range (n+1), bcM x k * bcM y (n-k) := by
  unfold bcM
  rw [descProd_add_eq, Finset.mul_sum]
  apply Finset.sum_congr rfl
  intro k hk
  have hkn : k ≤ n := Nat.lt_succ_iff.mp (Finset.mem_range.mp hk)
  have hcc : (MvPolynomial.C (1/(n.factorial:ℚ))
        : MvPolynomial (Fin 4) ℚ) * ((n.choose k : ℕ) : MvPolynomial (Fin 4) ℚ)
      = MvPolynomial.C (1/(k.factorial:ℚ))
        * MvPolynomial.C (1/((n-k).factorial:ℚ)) := by
    rw [← map_natCast (MvPolynomial.C : ℚ →+* MvPolynomial (Fin 4) ℚ)
        (n.choose k), ← map_mul, ← map_mul, choose_factor n k hkn]
  linear_combination (descProd x k * descProd y (n - k)) * hcc

/-- The fourfold Chu–Vandermonde, shaped as the source's lattice loops. -/
theorem bcM_add4 (x0 x1 x2 x3 : MvPolynomial (Fin 4) ℚ) (n : ℕ) :
    bcM (x0 + x1 + x2 + x3) n
      = ∑ i ∈ Finset.range (n+1), ∑ j ∈ Finset.range (n+1-i),
          ∑ k ∈ Finset.range (n+1-i-j),
            bcM x0 i * bcM x1 j * bcM x2 k * bcM x3 (n-i-j-k) := by
  rw [show x0+x1+x2+x3 = x0+(x1+(x2+x3)) from by ring, bcM_add]
  apply Finset.sum_congr rfl
  intro i hi
  have hin : i ≤ n := Nat.lt_succ_iff.mp (Finset.mem_range.mp hi)
  rw [bcM_add, Finset.mul_sum, show (n-i)+1 = n+1-i from by omega]
  apply Finset.sum_congr rfl
  intro j hj
  have hjn : j ≤ n - i := by
    have := Finset.mem_range.mp hj
    omega
  rw [bcM_add, Finset.mul_sum, Finset.mul_sum,
    show (n-i-j)+1 = n+1-i-j from by omega]
  apply Finset.sum_congr rfl
  intro k hk
  ring

theorem prod_cast_sub (m : ℕ) :
    (∏ k ∈ Finset.range m, ((m:ℚ) - (k:ℚ))) = (m.factorial : ℚ) := by
  have h : ∀ k ∈ Finset.range m, ((m:ℚ) - (k:ℚ)) = ((m - k : ℕ) : ℚ) := by
    intro k hk
    have := Finset.mem_range.mp hk
    rw [Nat.cast_sub (by omega)]
  rw [Finset.prod_congr rfl h, ← Nat.cast_prod]
  congr 1
  rw [← Finset.prod_range_reflect]
  have h2 : ∀ j ∈ Finset.range m, m - (m-1-j) = j+1 := by
    intro j hj
    have := Finset.mem_range.mp hj
    omega
  rw [Finset.prod_congr rfl h2, Finset.prod_range_add_one_eq_factorial]

/-- `aeval` transports the univariate binomial to the multivariate
one. -/
theorem aeval_bcP (y : MvPolynomial (Fin 4) ℚ) (x : Polynomial ℚ)
    (m : ℕ) :
    Polynomial.aeval y (bcP x m) = bcM (Polynomial.aeval y x) m := by
  unfold bcP bcM descProd
  rw [map_mul, Polynomial.aeval_C, map_prod, MvPolynomial.algebraMap_eq]
  congr 1
  apply Finset.prod_congr rfl
  intro k _
  rw [map_sub, map_natCast]

/-- The closed Lagrange factor product is a generalized binomial in
`n·t`. -/
theorem getPoly_closed (n : ℕ) (hn : n ≠ 0) (m : ℕ) :
    getPoly (closedNode n) m
      = bcP (Polynomial.C (n:ℚ) * Polynomial.X + Polynomial.C 0) m := by
  have hnq : (n:ℚ) ≠ 0 := Nat.cast_ne_zero.mpr hn
  unfold getPoly bcP descProd closedNode
  rw [Polynomial.C_0, add_zero]
  have hfac : ∀ k ∈ Finset.range m,
      Polynomial.C (1 / ((m:ℚ)/(n:ℚ) - (k:ℚ)/(n:ℚ)))
          * (Polynomial.X - Polynomial.C ((k:ℚ)/(n:ℚ)))
        = Polynomial.C ((n:ℚ) / ((m:ℚ) - (k:ℚ)))
          * (Polynomial.X - Polynomial.C ((k:ℚ)/(n:ℚ))) := by
    intro k hk
    rw [div_sub_div_same, one_div_div]
  have hrhs : ∀ k ∈ Finset.range m,
      (Polynomial.C (n:ℚ) * Polynomial.X - ((k:ℕ) : Polynomial ℚ))
        = Polynomial.C (n:ℚ)
            * (Polynomial.X - Polynomial.C ((k:ℚ)/(n:ℚ))) := by
    intro k hk
    rw [mul_sub]
    congr 1
    rw [← map_mul, mul_div_cancel₀ _ hnq, Polynomial.C_eq_natCast]
  rw [Finset.prod_congr rfl hfac, Finset.prod_mul_distrib, ← map_prod,
    Finset.prod_congr rfl hrhs, Finset.prod_mul_distrib,
    Finset.prod_const, ← map_pow]
  have hs : (∏ x ∈ Finset.range m, (n:ℚ)/((m:ℚ)-(x:ℚ)))
      = 1/(m.factorial:ℚ) * (n:ℚ)^(Finset.range m).card := by
    rw [Finset.prod_div_distrib, Finset.prod_const, prod_cast_sub,
      Finset.card_range]
    ring
  rw [hs, map_mul, mul_assoc]

/-- The open Lagrange factor product is a generalized binomial in
`(n+4)·t - 1`. -/
theorem getPoly_open (n m : ℕ) :
    getPoly (openNode n) m
      = bcP (Polynomial.C ((n:ℚ)+4) * Polynomial.X + Polynomial.C (-1))
          m := by
  have hnq : (n:ℚ) + 4 ≠ 0 := by positivity
  unfold getPoly bcP descProd openNode
  have hfac : ∀ k ∈ Finset.range m,
      Polynomial.C (1 / (((m:ℚ)+1)/((n:ℚ)+4) - ((k:ℚ)+1)/((n:ℚ)+4)))
          * (Polynomial.X - Polynomial.C (((k:ℚ)+1)/((n:ℚ)+4)))
        = Polynomial.C (((n:ℚ)+4) / ((m:ℚ) - (k:ℚ)))
          * (Polynomial.X - Polynomial.C (((k:ℚ)+1)/((n:ℚ)+4))) := by
    intro k hk
    rw [div_sub_div_same, one_div_div,
      show ((m:ℚ)+1) - ((k:ℚ)+1) = (m:ℚ) - (k:ℚ) from by ring]
  have hrhs : ∀ k ∈ Finset.range m,
      (Polynomial.C ((n:ℚ)+4) * Polynomial.X + Polynomial.C (-1)
          - ((k:ℕ) : Polynomial ℚ))
        = Polynomial.C ((n:ℚ)+4)
            * (Polynomial.X - Polynomial.C (((k:ℚ)+1)/((n:ℚ)+4))) := by
    intro k hk
    rw [mul_sub, ← map_mul, mul_div_cancel₀ _ hnq,
      show ((k:ℕ) : Polynomial ℚ) = Polynomial.C ((k:ℚ))
        from (Polynomial.C_eq_natCast k).symm,
      show Polynomial.C ((k:ℚ)+1)
          = Polynomial.C (k:ℚ) + Polynomial.C 1 from by rw [← map_add],
      Polynomial.C_1,
      show Polynomial.C (-1 : ℚ) = -(1 : Polynomial ℚ) from by
        rw [map_neg, Polynomial.C_1]]
    ring
  rw [Finset.prod_congr rfl hfac, Finset.prod_mul_distrib, ← map_prod,
    Finset.prod_congr rfl hrhs, Finset.prod_mul_distrib,
    Finset.prod_const, ← map_pow]
  have hs : (∏ x ∈ Finset.range m, ((n:ℚ)+4)/((m:ℚ)-(x:ℚ)))
      = 1/(m.factorial:ℚ) * ((n:ℚ)+4)^(Finset.range m).card := by
    rw [Finset.prod_div_distrib, Finset.prod_const, prod_cast_sub,
      Finset.card_range]
    ring
  rw [hs, map_mul, mul_assoc]

theorem sum_map_range (f : ℕ → ℚ) (n : ℕ) :
    ((List.range n).map f).sum = ∑ i ∈ Finset.range n, f i := by
  induction n with
  | zero => simp
  | succ n ih =>
      rw [List.range_succ, List.map_append, List.sum_append,
        Finset.sum_range_succ, ih]
      simp

/-- The flattened lattice list sums like the nested loops. -/
theorem ncLattice_sum (w : ℕ × ℕ × ℕ → ℚ) (n : ℕ) :
    ((ncLattice n).map w).sum
      = ∑ i ∈ Finset.range (n+1), ∑ j ∈ Finset.range (n+1-i),
          ∑ k ∈ Finset.range (n+1-i-j), w (i, j, k) := by
  unfold ncLattice
  rw [List.map_flatten, List.map_map, List.sum_flatten, List.map_map,
    sum_map_range]
  apply Finset.sum_congr rfl
  intro i _
  simp only [Function.comp]
  rw [List.map_flatten, List.map_map, List.sum_flatten, List.map_map,
    sum_map_range]
  apply Finset.sum_congr rfl
  intro j _
  simp only [Function.comp]
  rw [List.map_map, sum_map_range]
  apply Finset.sum_congr rfl
  intro k _
  simp only [Function.comp]

/-- Any Newton–Cotes variant whose Lagrange factors are binomials in an
affine map `a·t + b` with `∏ (a + 4b - k) = n!` has weights summing to
1. -/
theorem newtonCotes_sum_one (p : ℕ → ℚ) (a b : ℚ) (n : ℕ) (hn : n ≠ 0)
    (hp : ∀ m, getPoly p m
      = bcP (Polynomial.C a * Polynomial.X + Polynomial.C b) m)
    (hval : (∏ k ∈ Finset.range n, (a + 4*b - (k:ℚ)))
      = (n.factorial : ℚ)) :
    (newtonCotesWeights p n).sum = 1 := by
  have haff : ∀ s : Fin 4,
      Polynomial.aeval (MvPolynomial.X s : MvPolynomial (Fin 4) ℚ)
          (Polynomial.C a * Polynomial.X + Polynomial.C b)
        = MvPolynomial.C a * MvPolynomial.X s + MvPolynomial.C b := by
    intro s
    rw [map_add, map_mul, Polynomial.aeval_C, Polynomial.aeval_C,
      Polynomial.aeval_X, MvPolynomial.algebraMap_eq]
  have hlp : ∀ i j k l : ℕ, latticePoly p i j k l
      = bcM (MvPolynomial.C a * MvPolynomial.X 0 + MvPolynomial.C b) i
        * bcM (MvPolynomial.C a * MvPolynomial.X 1 + MvPolynomial.C b) j
        * bcM (MvPolynomial.C a * MvPolynomial.X 2 + MvPolynomial.C b) k
        * bcM (MvPolynomial.C a * MvPolynomial.X 3 + MvPolynomial.C b)
            l := by
    intro i j k l
    unfold latticePoly
    rw [hp, hp, hp, hp, aeval_bcP, aeval_bcP, aeval_bcP, aeval_bcP,
      haff, haff, haff, haff]
  unfold newtonCotesWeights
  rw [if_neg hn, ncLattice_sum]
  simp only [hlp]
  simp only [← silvesterSum_finset_sum]
  rw [← bcM_add4]
  have hsum4 : bcM
      ((MvPolynomial.C a * MvPolynomial.X 0 + MvPolynomial.C b)
        + (MvPolynomial.C a * MvPolynomial.X 1 + MvPolynomial.C b)
        + (MvPolynomial.C a * MvPolynomial.X 2 + MvPolynomial.C b)
        + (MvPolynomial.C a * MvPolynomial.X 3 + MvPolynomial.C b)) n
      = Polynomial.aeval tSum
          (bcP (Polynomial.C a * Polynomial.X + Polynomial.C (4*b))
            n) := by
    rw [aeval_bcP]
    congr 1
    rw [map_add, map_mul, Polynomial.aeval_C, Polynomial.aeval_C,
      Polynomial.aeval_X, MvPolynomial.algebraMap_eq,
      show MvPolynomial.C (4*b)
          = (4 : MvPolynomial (Fin 4) ℚ) * MvPolynomial.C b from by
        rw [map_mul, map_ofNat],
      tSum]
    ring
  rw [hsum4, silvesterSum_aeval_tSum]
  unfold bcP descProd
  rw [Polynomial.eval_mul, Polynomial.eval_C, Polynomial.eval_prod]
  have heval : ∀ k ∈ Finset.range n,
      Polynomial.eval 1 (Polynomial.C a * Polynomial.X
          + Polynomial.C (4*b) - ((k:ℕ) : Polynomial ℚ))
        = a + 4*b - (k:ℚ) := by
    intro k hk
    simp
  rw [Finset.prod_congr rfl heval, hval]
  have hfne : (n.factorial : ℚ) ≠ 0 := by
    exact_mod_cast (Nat.factorial_pos _).ne'
  field_simp

/-- **C6.** Order 0 reduces to the single weight `[1]` (the reference
volume), and for every order `n` the weights of `NewtonCotesClosed(n)`
and `NewtonCotesOpen(n)` sum to the reference volume `1`. -/
theorem newton_cotes_weight_sums :
    newtonCotesClosedWeights 0 = [1] ∧
    newtonCotesOpenWeights 0 = [1] ∧
    (∀ n : ℕ, (newtonCotesClosedWeights n).sum = 1) ∧
    (∀ n : ℕ, (newtonCotesOpenWeights n).sum = 1) := by
  refine ⟨rfl, rfl, ?_, ?_⟩
  · intro n
    rcases eq_or_ne n 0 with rfl | hn
    · norm_num [newtonCotesClosedWeights, newtonCotesWeights]
    · refine newtonCotes_sum_one (closedNode n) (n:ℚ) 0 n hn
        (getPoly_closed n hn) ?_
      have h : ∀ k ∈ Finset.range n, (n:ℚ) + 4*0 - (k:ℚ)
          = (n:ℚ) - (k:ℚ) := by
        intro k hk
        ring
      rw [Finset.prod_congr rfl h, prod_cast_sub]
  · intro n
    rcases eq_or_ne n 0 with rfl | hn
    · norm_num [newtonCotesOpenWeights, newtonCotesWeights]
    · refine newtonCotes_sum_one (openNode n) ((n:ℚ)+4) (-1) n hn
        (getPoly_open n) ?_
      have h : ∀ k ∈ Finset.range n, ((n:ℚ)+4) + 4*(-1) - (k:ℚ)
          = (n:ℚ) - (k:ℚ) := by
        intro k hk
        ring
      rw [Finset.prod_congr rfl h, prod_cast_sub]

end Quadpy
